import Mathlib

/-!
# Leave management backend (`src/index.js`)

A shallow embedding of the four request handlers of `src/index.js` and of the
three helper functions they call, followed by the properties proved about them.

Modelling conventions.

* The process state is the four module-level variables `employees`,
  `employeeIdCounter`, `leaves`, `leaveIdCounter`; a handler is a function from a
  state and the decoded request fields to a response and the next state.
* A field of a JSON request body is a `JVal` (absent, `null`, boolean, number or
  string).  Numbers are integers; array- and object-valued fields are not covered.
* A `Date` is its time value: an integer number of milliseconds since the epoch
  (an invalid `Date` is `none`).  Arithmetic on time values is exact integer
  arithmetic.  The program computes with doubles; the two agree as long as the
  difference of two time values has magnitude at most `2 ^ 53`, which covers every
  range of up to about 285,000 years.  Beyond that the subtraction `end - start` of
  `getDaysBetween` is rounded before the division and the program can return one day
  more than the model.
* `Date.parse` on strings belongs to the JavaScript runtime, not to the program; it
  is the parameter `dp : String → Option Int` of every definition that calls
  `new Date(..)`.
-/

namespace LeaveManagement

/-! ## Request values -/

/-- The value of one field of a decoded JSON request body (`undefined` when the
field is absent). -/
inductive JVal where
  | undefined : JVal
  | null : JVal
  | bool (b : Bool) : JVal
  | num (n : Int) : JVal
  | str (s : String) : JVal
  deriving DecidableEq, Repr

/-- JavaScript truthiness: `!v` is `!(truthy v)`. -/
def JVal.truthy : JVal → Bool
  | .undefined => false
  | .null => false
  | .bool b => b
  | .num n => decide (n ≠ 0)
  | .str s => decide (s ≠ "")

/-- Largest magnitude of a valid time value (ECMAScript `TimeClip`). -/
def maxTimeValue : Int := 8640000000000000

/-- The time value of `new Date(v)`; `none` is an invalid date (`isNaN`). Strings go
through `Date.parse` (the parameter `dp`), other values through `ToNumber` and
`TimeClip`. -/
def newDate (dp : String → Option Int) : JVal → Option Int
  | .str s => dp s
  | .num n => if n.natAbs ≤ maxTimeValue.natAbs then some n else none
  | .bool b => some (if b then 1 else 0)
  | .null => some 0
  | .undefined => none

/-! ## Data model -/

/-- The constant `ANNUAL_LEAVE_BALANCE` (line 8). -/
def ANNUAL_LEAVE_BALANCE : Int := 20

/-- An element of `employees` (lines 33-40). -/
structure Employee where
  id : Int
  name : JVal
  email : JVal
  department : JVal
  joiningDate : Int
  leaveBalance : Int
  deriving DecidableEq, Repr

/-- An element of `leaves` (lines 103-109). -/
structure Leave where
  id : Int
  employeeId : Int
  startDate : Int
  endDate : Int
  status : String
  deriving DecidableEq, Repr

/-- The module-level variables (lines 6-7 and 128-129). -/
structure State where
  employees : List Employee
  employeeIdCounter : Int
  leaves : List Leave
  leaveIdCounter : Int
  deriving DecidableEq, Repr

/-- The state at process start. -/
def State.init : State :=
  { employees := [], employeeIdCounter := 1, leaves := [], leaveIdCounter := 1 }

/-- What a handler sends back: `res.status(code).json({error})` or one of the four
success payloads. -/
inductive Response where
  | error (code : Nat) (msg : String) : Response
  | employee (e : Employee) : Response
  | leave (l : Leave) : Response
  | decision (leaveRequestId : Int) (status : String)
      (leaveBalanceRemaining : Option Int) : Response
  | balance (employeeId : Int) (leaveBalance : Option Int) : Response
  deriving DecidableEq, Repr

/-! ## Helper functions -/

/-- The local constant `msPerDay` of `getDaysBetween`. -/
def msPerDay : Int := 24 * 60 * 60 * 1000

/-- The function `getDaysBetween(start, end)` (lines 47-50):
`Math.floor((end - start) / msPerDay) + 1`.
`/` on `Int` rounds down for the positive divisor `msPerDay`.  The integers are exact
where the program uses doubles: the results agree whenever `end - start` has magnitude
at most `2 ^ 53` milliseconds. -/
def getDaysBetween (start endDate : Int) : Int :=
  (endDate - start) / msPerDay + 1

/-- The function `isOverlapping(employeeId, startDate, endDate)` (lines 53-59), with
the module-level `leaves` as first argument. -/
def isOverlapping (leaves : List Leave) (employeeId startDate endDate : Int) : Bool :=
  leaves.any (fun leave =>
    decide (leave.employeeId = employeeId) &&
    decide (leave.status ≠ "Rejected") &&
    (decide (startDate ≤ leave.endDate) && decide (endDate ≥ leave.startDate)))

/-- The lookup `employees.find(e => e.id === employeeId)` for a numeric `employeeId`. -/
def findEmployee (employees : List Employee) (employeeId : Int) : Option Employee :=
  employees.find? (fun e => decide (e.id = employeeId))

/-- The sum computed by the `reduce` of `getLeaveBalance` (lines 119-122). -/
def usedDays (leaves : List Leave) (employeeId : Int) : Int :=
  let approvedLeaves :=
    leaves.filter (fun l => decide (l.employeeId = employeeId) && decide (l.status = "Approved"))
  approvedLeaves.foldl
    (fun total leave => total + getDaysBetween leave.startDate leave.endDate) 0

/-- The function `getLeaveBalance(employeeId)` (lines 115-125); `none` is the `null` returned for
an unknown employee. -/
def getLeaveBalance (s : State) (employeeId : Int) : Option Int :=
  match findEmployee s.employees employeeId with
  | none => none
  | some _ => some (ANNUAL_LEAVE_BALANCE - usedDays s.leaves employeeId)

/-- The comparison `leaveDays > currentBalance` where `currentBalance` may be `null`
(which `>` converts to `0`). -/
def exceedsBalance (leaveDays : Int) : Option Int → Bool
  | none => decide (leaveDays > 0)
  | some currentBalance => decide (leaveDays > currentBalance)

/-- The test `e.id === v` for the numeric `e.id` and a request value `v`: strict equality
holds only between equal numbers. -/
def strictEqNum (n : Int) : JVal → Bool
  | .num m => decide (n = m)
  | _ => false

/-- The assignment `leave.status = status` on the object returned by
`leaves.find(l => l.id === leaveId)`: the first element with that id is updated in
place. -/
def setStatus : List Leave → Int → String → List Leave
  | [], _, _ => []
  | l :: ls, leaveId, status =>
    if l.id = leaveId then { l with status := status } :: ls
    else l :: setStatus ls leaveId status

/-! ## Request handlers -/

/-- The handler of `POST /employees` (lines 16-44). -/
def register (dp : String → Option Int) (s : State)
    (name email department joiningDate : JVal) : Response × State :=
  if !name.truthy || !email.truthy || !department.truthy || !joiningDate.truthy then
    (.error 400 "All fields are required.", s)
  else if s.employees.any (fun e => decide (e.email = email)) then
    (.error 400 "Email already exists.", s)
  else
    match newDate dp joiningDate with
    | none => (.error 400 "Invalid joiningDate format.", s)
    | some joining =>
      let newEmployee : Employee :=
        { id := s.employeeIdCounter, name := name, email := email,
          department := department, joiningDate := joining,
          leaveBalance := ANNUAL_LEAVE_BALANCE }
      (.employee newEmployee,
        { s with employeeIdCounter := s.employeeIdCounter + 1,
                 employees := s.employees ++ [newEmployee] })

/-- The handler of `POST /leaves/apply` (lines 62-112). Once the employee is found,
`employeeId` is the number `employee.id`. -/
def applyLeave (dp : String → Option Int) (s : State)
    (employeeId startDate endDate : JVal) : Response × State :=
  if !employeeId.truthy || !startDate.truthy || !endDate.truthy then
    (.error 400 "employeeId, startDate and endDate are required.", s)
  else
    match s.employees.find? (fun e => strictEqNum e.id employeeId) with
    | none => (.error 404 "Employee not found.", s)
    | some employee =>
      match newDate dp startDate, newDate dp endDate with
      | some start, some endD =>
        if endD < start then
          (.error 400 "endDate cannot be before startDate.", s)
        else if start < employee.joiningDate then
          (.error 400 "Cannot apply leave before joining date.", s)
        else if isOverlapping s.leaves employee.id start endD then
          (.error 400 "Leave request overlaps with existing leave.", s)
        else
          let leaveDays := getDaysBetween start endD
          let currentBalance := getLeaveBalance s employee.id
          if exceedsBalance leaveDays currentBalance then
            (.error 400 "Leave days exceed available leave balance.", s)
          else
            let newLeave : Leave :=
              { id := s.leaveIdCounter, employeeId := employee.id,
                startDate := start, endDate := endD, status := "Pending" }
            (.leave newLeave,
              { s with leaveIdCounter := s.leaveIdCounter + 1,
                       leaves := s.leaves ++ [newLeave] })
      | _, _ => (.error 400 "Invalid date format.", s)

/-- The handler of `PUT /leaves/:id/status` (lines 132-167). `leaveId` is
`parseInt(req.params.id)`, with `none` for `NaN`. -/
def decideLeave (s : State) (leaveId : Option Int) (status : JVal) : Response × State :=
  match status with
  | .str st =>
    if !(["Approved", "Rejected"].contains st) then
      (.error 400 "Status must be Approved or Rejected.", s)
    else
      match leaveId.bind (fun i => s.leaves.find? (fun l => decide (l.id = i))) with
      | none => (.error 404 "Leave request not found.", s)
      | some leave =>
        if leave.status ≠ "Pending" then
          (.error 400 "Leave request is already processed.", s)
        else if st = "Approved" ∧
            exceedsBalance (getDaysBetween leave.startDate leave.endDate)
              (getLeaveBalance s leave.employeeId) = true then
          (.error 400 "Insufficient leave balance to approve.", s)
        else
          let s' : State := { s with leaves := setStatus s.leaves leave.id st }
          let updatedBalance := getLeaveBalance s' leave.employeeId
          (.decision leave.id st updatedBalance, s')
  | _ => (.error 400 "Status must be Approved or Rejected.", s)

/-- The handler of `GET /employees/:id/balance` (lines 171-182). `employeeId` is
`parseInt(req.params.id)`, with `none` for `NaN`. -/
def balanceOf (s : State) (employeeId : Option Int) : Response × State :=
  match employeeId.bind (fun i => findEmployee s.employees i) with
  | none => (.error 404 "Employee not found.", s)
  | some employee => (.balance employee.id (getLeaveBalance s employee.id), s)

/-! ## The server as a transition system -/

/-- One request to the server. -/
inductive Request where
  | register (name email department joiningDate : JVal) : Request
  | apply (employeeId startDate endDate : JVal) : Request
  | decide (leaveId : Option Int) (status : JVal) : Request
  | balance (employeeId : Option Int) : Request
  deriving DecidableEq, Repr

/-- Dispatch of one request to its handler. -/
def step (dp : String → Option Int) (s : State) : Request → Response × State
  | .register name email department joiningDate =>
    register dp s name email department joiningDate
  | .apply employeeId startDate endDate => applyLeave dp s employeeId startDate endDate
  | .decide leaveId status => decideLeave s leaveId status
  | .balance employeeId => balanceOf s employeeId

/-- The state after serving the requests `rs` one after the other. -/
def run (dp : String → Option Int) (s : State) (rs : List Request) : State :=
  rs.foldl (fun st r => (step dp st r).2) s

/-- A state the server can be in: the state after some finite sequence of requests
served from process start. -/
def Reachable (dp : String → Option Int) (s : State) : Prop :=
  ∃ rs : List Request, run dp State.init rs = s

/-! ## Derived notions used in the statements -/

/-- Day count that a request contributes to the used days of `employeeId`. -/
def contribution (employeeId : Int) (l : Leave) : Int :=
  if l.employeeId = employeeId ∧ l.status = "Approved" then
    getDaysBetween l.startDate l.endDate
  else 0

/-- The state after a successful registration. -/
def registered (s : State) (name email department : JVal) (joining : Int) : State :=
  { s with
    employeeIdCounter := s.employeeIdCounter + 1,
    employees := s.employees ++
      [{ id := s.employeeIdCounter, name := name, email := email, department := department,
         joiningDate := joining, leaveBalance := ANNUAL_LEAVE_BALANCE }] }

/-- The request created by a successful application. -/
def pendingLeave (s : State) (employeeId start endD : Int) : Leave :=
  { id := s.leaveIdCounter, employeeId := employeeId, startDate := start, endDate := endD,
    status := "Pending" }

/-- The state after a successful application. -/
def applied (s : State) (employeeId start endD : Int) : State :=
  { s with
    leaveIdCounter := s.leaveIdCounter + 1,
    leaves := s.leaves ++ [pendingLeave s employeeId start endD] }

/-- The state after a successful decision. -/
def decided (s : State) (leaveId : Int) (st : String) : State :=
  { s with leaves := setStatus s.leaves leaveId st }

/-- Well-formedness of a request stored in a state with the given employees. -/
def leaveWellFormed (employees : List Employee) (l : Leave) : Prop :=
  l.startDate ≤ l.endDate ∧
  (l.status = "Pending" ∨ l.status = "Approved" ∨ l.status = "Rejected") ∧
  ∃ e ∈ employees, e.id = l.employeeId ∧ e.joiningDate ≤ l.startDate

/-- The facts that hold in every state the server can reach. -/
structure Inv (s : State) : Prop where
  empCounter : 1 ≤ s.employeeIdCounter
  leaveCounter : 1 ≤ s.leaveIdCounter
  empIds : ∀ e ∈ s.employees, 1 ≤ e.id ∧ e.id < s.employeeIdCounter
  empNodup : (s.employees.map (fun e => e.id)).Nodup
  leaveIds : ∀ l ∈ s.leaves, 1 ≤ l.id ∧ l.id < s.leaveIdCounter
  leaveNodup : (s.leaves.map (fun l => l.id)).Nodup
  leaveOk : ∀ l ∈ s.leaves, leaveWellFormed s.employees l
  allowance : ∀ i, usedDays s.leaves i ≤ ANNUAL_LEAVE_BALANCE

/-- The ids returned by the successful registrations among the requests `rs`, served
one after the other from the state `s`, in call order. -/
def registeredIds (dp : String → Option Int) (s : State) : List Request → List Int
  | [] => []
  | r :: rs =>
    match (step dp s r).1 with
    | .employee e => e.id :: registeredIds dp (step dp s r).2 rs
    | _ => registeredIds dp (step dp s r).2 rs

/-- Two requests, as ranges of one employee that are both not rejected, intersect. -/
def conflicting (a b : Leave) : Prop :=
  a.employeeId = b.employeeId ∧ a.status ≠ "Rejected" ∧ b.status ≠ "Rejected" ∧
    a.startDate ≤ b.endDate ∧ b.startDate ≤ a.endDate

/-- Further facts of the reachable states: ids follow the position in the two lists,
emails are pairwise distinct, and no two stored requests conflict. -/
structure StoreInv (s : State) : Prop where
  empCount : s.employeeIdCounter = (s.employees.length : Int) + 1
  empPos : ∀ (i : Nat) (e : Employee), s.employees[i]? = some e → e.id = (i : Int) + 1
  leaveCount : s.leaveIdCounter = (s.leaves.length : Int) + 1
  leavePos : ∀ (i : Nat) (l : Leave), s.leaves[i]? = some l → l.id = (i : Int) + 1
  emails : (s.employees.map (fun e => e.email)).Nodup
  disjoint : ∀ (i j : Nat) (a b : Leave), i ≠ j → s.leaves[i]? = some a →
    s.leaves[j]? = some b → ¬ conflicting a b

/-! ## A concrete `Date.parse` for the examples -/

/-- Value of a decimal digit. -/
def digitVal (c : Char) : Option Int :=
  if '0' ≤ c ∧ c ≤ '9' then some (Int.ofNat (c.toNat - '0'.toNat)) else none

/-- Days from 1970-01-01 to the civil date `y-m-d` of the proleptic Gregorian calendar. -/
def daysFromCivil (y m d : Int) : Int :=
  let y1 := if m ≤ 2 then y - 1 else y
  let era := y1 / 400
  let yoe := y1 - era * 400
  let mp := (m + 9) % 12
  let doy := (153 * mp + 2) / 5 + d - 1
  let doe := yoe * 365 + yoe / 4 - yoe / 100 + doy
  era * 146097 + doe - 719468

/-- An instance of `Date.parse` used in the concrete examples: it reads the date-only
form `YYYY-MM-DD` as midnight UTC of that day (as `Date.parse` does for this form) and
accepts nothing else. -/
def isoDate (s : String) : Option Int :=
  match s.data with
  | [y1, y2, y3, y4, '-', m1, m2, '-', d1, d2] =>
    match digitVal y1, digitVal y2, digitVal y3, digitVal y4, digitVal m1, digitVal m2,
          digitVal d1, digitVal d2 with
    | some a, some b, some c, some d, some e, some f, some g, some h =>
      let y := 1000 * a + 100 * b + 10 * c + d
      let m := 10 * e + f
      let dd := 10 * g + h
      if 1 ≤ m ∧ m ≤ 12 ∧ 1 ≤ dd ∧ dd ≤ 31 then some (daysFromCivil y m dd * msPerDay)
      else none
    | _, _, _, _, _, _, _, _ => none
  | _ => none

/-- A second instance of `Date.parse` for the examples: besides the date-only form
it reads the UTC date-time form `YYYY-MM-DDTHH:MM:SSZ`, as that instant. -/
def isoDateTime (s : String) : Option Int :=
  match isoDate (String.mk (s.data.take 10)), s.data.drop 10 with
  | some day, [] => some day
  | some day, ['T', h1, h2, ':', n1, n2, ':', s1, s2, 'Z'] =>
    match digitVal h1, digitVal h2, digitVal n1, digitVal n2, digitVal s1, digitVal s2 with
    | some a, some b, some c, some d, some e, some f =>
      let hh := 10 * a + b
      let mm := 10 * c + d
      let ss := 10 * e + f
      if hh ≤ 23 ∧ mm ≤ 59 ∧ ss ≤ 59 then some (day + ((hh * 60 + mm) * 60 + ss) * 1000)
      else none
    | _, _, _, _, _, _ => none
  | _, _ => none

/-! ## Example request sequences -/

/-- Registration of one employee who joined on 2024-01-01. -/
def registerAnn : Request :=
  .register (.str "Ann") (.str "ann@example.org") (.str "Engineering") (.str "2024-01-01")

/-- The employee record stored by `registerAnn` at process start. -/
def ann : Employee :=
  { id := 1, name := .str "Ann", email := .str "ann@example.org",
    department := .str "Engineering", joiningDate := 1704067200000, leaveBalance := 20 }

/-- Ann registers, applies for 15 days and for 10 days, and the first request is
approved. -/
def scenarioApproved : List Request :=
  [registerAnn,
   .apply (.num 1) (.str "2024-02-01") (.str "2024-02-15"),
   .apply (.num 1) (.str "2024-03-01") (.str "2024-03-10"),
   .decide (some 1) (.str "Approved")]

/-- Ann registers and applies for five days, 2024-02-01 to 2024-02-05. -/
def scenarioPending : List Request :=
  [registerAnn,
   .apply (.num 1) (.str "2024-02-01") (.str "2024-02-05")]

/-- Ann registers, applies for five days and the request is rejected. -/
def scenarioRejected : List Request :=
  scenarioPending ++ [.decide (some 1) (.str "Rejected")]

/-- Ann registers and applies for one hour of 2024-02-01, from 08:00 to 09:00 UTC. -/
def scenarioMorning : List Request :=
  [registerAnn,
   .apply (.num 1) (.str "2024-02-01T08:00:00Z") (.str "2024-02-01T09:00:00Z")]

/-! # Lemmas -/

/-! ## Lists of leave requests -/

theorem foldl_add_start (f : Leave → Int) (a : Int) (ls : List Leave) :
    ls.foldl (fun total leave => total + f leave) a
      = a + ls.foldl (fun total leave => total + f leave) 0 := by
  induction ls generalizing a with
  | nil => simp
  | cons l ls ih =>
    simp only [List.foldl_cons]
    rw [ih (a + f l), ih (0 + f l)]
    omega

theorem usedDays_nil (employeeId : Int) : usedDays [] employeeId = 0 := rfl

theorem usedDays_cons (l : Leave) (ls : List Leave) (employeeId : Int) :
    usedDays (l :: ls) employeeId = contribution employeeId l + usedDays ls employeeId := by
  unfold usedDays contribution
  by_cases h : l.employeeId = employeeId ∧ l.status = "Approved"
  · have hb : (decide (l.employeeId = employeeId) && decide (l.status = "Approved")) = true := by
      simp [h.1, h.2]
    simp only [List.filter_cons, hb, if_true, List.foldl_cons, if_pos h]
    rw [foldl_add_start]
    omega
  · have hb : (decide (l.employeeId = employeeId) && decide (l.status = "Approved")) = false := by
      simpa using h
    simp [List.filter_cons, hb, if_neg h]

theorem usedDays_append (ls ms : List Leave) (employeeId : Int) :
    usedDays (ls ++ ms) employeeId = usedDays ls employeeId + usedDays ms employeeId := by
  induction ls with
  | nil => simp [usedDays_nil]
  | cons l ls ih => simp only [List.cons_append, usedDays_cons, ih]; omega

theorem usedDays_append_pending (ls : List Leave) (l : Leave) (employeeId : Int)
    (h : l.status = "Pending") : usedDays (ls ++ [l]) employeeId = usedDays ls employeeId := by
  rw [usedDays_append, usedDays_cons, usedDays_nil]
  simp [contribution, h]

theorem setStatus_map_id (ls : List Leave) (i : Int) (st : String) :
    (setStatus ls i st).map (fun l => l.id) = ls.map (fun l => l.id) := by
  induction ls with
  | nil => rfl
  | cons l ls ih =>
    unfold setStatus
    split
    · simp
    · simp [ih]

theorem setStatus_length (ls : List Leave) (i : Int) (st : String) :
    (setStatus ls i st).length = ls.length := by
  have h := congrArg List.length (setStatus_map_id ls i st)
  simpa using h

theorem setStatus_of_find_none (ls : List Leave) (i : Int) (st : String)
    (h : ls.find? (fun l => decide (l.id = i)) = none) : setStatus ls i st = ls := by
  induction ls with
  | nil => rfl
  | cons l ls ih =>
    simp only [List.find?_cons] at h
    split at h
    · simp at h
    · rename_i hne
      have hne2 : ¬ l.id = i := by simpa using hne
      simp [setStatus, hne2, ih h]

/-- Position by position, `setStatus` keeps every request except the one returned by
`find`, whose status alone changes. -/
theorem setStatus_getElem? (ls : List Leave) (i : Int) (st : String) (leave : Leave)
    (hf : ls.find? (fun l => decide (l.id = i)) = some leave) (j : Nat) (l : Leave)
    (hj : ls[j]? = some l) :
    (setStatus ls i st)[j]? = some l ∨
      (l = leave ∧ (setStatus ls i st)[j]? = some { l with status := st }) := by
  induction ls generalizing j with
  | nil => simp at hj
  | cons a ls ih =>
    simp only [List.find?_cons] at hf
    by_cases ha : a.id = i
    · simp only [ha, decide_True] at hf
      simp only [setStatus, ha, if_true]
      cases j with
      | zero =>
        simp only [List.getElem?_cons_zero, Option.some.injEq] at hj
        right
        subst hj
        exact ⟨Option.some.inj hf, by simp [ha]⟩
      | succ j => left; simpa using hj
    · have hd : decide (a.id = i) = false := by simpa using ha
      simp only [hd] at hf
      simp only [setStatus, ha, if_false]
      cases j with
      | zero => left; simpa using hj
      | succ j =>
        simp only [List.getElem?_cons_succ] at hj ⊢
        exact ih hf j hj

theorem setStatus_mem (ls : List Leave) (i : Int) (st : String) (l' : Leave)
    (h : l' ∈ setStatus ls i st) :
    l' ∈ ls ∨ ∃ l ∈ ls, l.id = i ∧ l' = { l with status := st } := by
  induction ls with
  | nil => simp [setStatus] at h
  | cons a ls ih =>
    unfold setStatus at h
    split at h
    · rename_i ha
      rcases List.mem_cons.1 h with h | h
      · right; exact ⟨a, by simp, ha, h⟩
      · left; simp [h]
    · rcases List.mem_cons.1 h with h | h
      · left; simp [h]
      · rcases ih h with h | ⟨l, hl, hli, hl'⟩
        · left; simp [h]
        · right; exact ⟨l, by simp [hl], hli, hl'⟩

/-- Used days after the status assignment on a request that was not `Approved`. -/
theorem usedDays_setStatus (ls : List Leave) (i : Int) (st : String) (leave : Leave)
    (hf : ls.find? (fun l => decide (l.id = i)) = some leave)
    (hs : leave.status ≠ "Approved") (employeeId : Int) :
    usedDays (setStatus ls i st) employeeId
      = usedDays ls employeeId
        + (if leave.employeeId = employeeId ∧ st = "Approved" then
            getDaysBetween leave.startDate leave.endDate else 0) := by
  induction ls with
  | nil => simp at hf
  | cons a ls ih =>
    simp only [List.find?_cons] at hf
    by_cases ha : a.id = i
    · simp only [ha, decide_True, Option.some.injEq] at hf
      subst hf
      simp only [setStatus, ha, if_true, usedDays_cons, contribution]
      simp only [hs, and_false, if_false]
      omega
    · have hd : decide (a.id = i) = false := by simpa using ha
      simp only [hd] at hf
      simp only [setStatus, ha, if_false, usedDays_cons, ih hf]
      omega

theorem find?_id_of_mem (ls : List Leave) (r : Leave)
    (hn : (ls.map (fun l => l.id)).Nodup) (hr : r ∈ ls) :
    ls.find? (fun l => decide (l.id = r.id)) = some r := by
  induction ls with
  | nil => simp at hr
  | cons a ls ih =>
    simp only [List.map_cons, List.nodup_cons] at hn
    rcases List.mem_cons.1 hr with h | h
    · subst h; simp
    · have hne : a.id ≠ r.id := by
        intro he
        exact hn.1 (he ▸ List.mem_map_of_mem (fun l => l.id) h)
      simp [List.find?_cons, hne, ih hn.2 h]

theorem findEmployee_of_mem (es : List Employee) (e : Employee)
    (hn : (es.map (fun x => x.id)).Nodup) (he : e ∈ es) :
    findEmployee es e.id = some e := by
  unfold findEmployee
  induction es with
  | nil => simp at he
  | cons a es ih =>
    simp only [List.map_cons, List.nodup_cons] at hn
    rcases List.mem_cons.1 he with h | h
    · subst h; simp
    · have hne : a.id ≠ e.id := by
        intro hq
        exact hn.1 (hq ▸ List.mem_map_of_mem (fun x => x.id) h)
      simp [List.find?_cons, hne, ih hn.2 h]

theorem findEmployee_some (es : List Employee) (i : Int) (e : Employee)
    (h : findEmployee es i = some e) : e ∈ es ∧ e.id = i := by
  unfold findEmployee at h
  exact ⟨List.mem_of_find?_eq_some h, by simpa using List.find?_some h⟩

theorem find?_strictEqNum (es : List Employee) (v : JVal) (e : Employee)
    (h : es.find? (fun x => strictEqNum x.id v) = some e) :
    e ∈ es ∧ v = .num e.id := by
  refine ⟨List.mem_of_find?_eq_some h, ?_⟩
  have h2 := List.find?_some h
  cases v <;> simp [strictEqNum] at h2
  simp [h2]

theorem find?_strictEqNum_num (es : List Employee) (i : Int) :
    es.find? (fun x => strictEqNum x.id (.num i)) = findEmployee es i := by
  simp [findEmployee, strictEqNum]

/-! ## Runs -/

theorem run_nil (dp : String → Option Int) (s : State) : run dp s [] = s := rfl

theorem run_cons (dp : String → Option Int) (s : State) (r : Request) (rs : List Request) :
    run dp s (r :: rs) = run dp (step dp s r).2 rs := rfl

theorem run_append (dp : String → Option Int) (s : State) (rs qs : List Request) :
    run dp s (rs ++ qs) = run dp (run dp s rs) qs := by
  simp [run, List.foldl_append]

theorem reachable_init (dp : String → Option Int) : Reachable dp State.init := ⟨[], rfl⟩

theorem reachable_step {dp : String → Option Int} {s : State} (h : Reachable dp s)
    (r : Request) : Reachable dp (step dp s r).2 := by
  obtain ⟨rs, hrs⟩ := h
  exact ⟨rs ++ [r], by rw [run_append, hrs]; rfl⟩

theorem reachable_run {dp : String → Option Int} {s : State} (h : Reachable dp s)
    (rs : List Request) : Reachable dp (run dp s rs) := by
  obtain ⟨qs, hqs⟩ := h
  exact ⟨qs ++ rs, by rw [run_append, hqs]⟩

/-- Induction over reachable states. -/
theorem reachable_induction {dp : String → Option Int} (P : State → Prop)
    (h0 : P State.init) (hstep : ∀ s r, P s → P (step dp s r).2) :
    ∀ s, Reachable dp s → P s := by
  have key : ∀ (rs : List Request) (s : State), P s → P (run dp s rs) := by
    intro rs
    induction rs with
    | nil => intro s hs; exact hs
    | cons r rs ih => intro s hs; exact ih _ (hstep s r hs)
  rintro s ⟨rs, rfl⟩
  exact key rs _ h0

/-! ## What each handler does to the state -/

theorem register_cases (dp : String → Option Int) (s : State)
    (name email department joiningDate : JVal) :
    (∃ msg, register dp s name email department joiningDate = (.error 400 msg, s)) ∨
    ∃ joining, newDate dp joiningDate = some joining ∧
      name.truthy = true ∧ email.truthy = true ∧ department.truthy = true ∧
      joiningDate.truthy = true ∧
      (∀ e ∈ s.employees, e.email ≠ email) ∧
      register dp s name email department joiningDate
        = (.employee { id := s.employeeIdCounter, name := name, email := email,
                       department := department, joiningDate := joining,
                       leaveBalance := ANNUAL_LEAVE_BALANCE },
           registered s name email department joining) := by
  unfold register
  split
  · exact Or.inl ⟨_, rfl⟩
  · rename_i h1
    split
    · exact Or.inl ⟨_, rfl⟩
    · rename_i h2
      split
      · exact Or.inl ⟨_, rfl⟩
      · rename_i joining hj
        right
        refine ⟨joining, hj, ?_, ?_, ?_, ?_, ?_, rfl⟩
        · simpa using (show name.truthy = true by
            cases hn : name.truthy <;> simp [hn] at h1 ⊢)
        · cases hn : email.truthy <;> simp [hn] at h1 ⊢
        · cases hn : department.truthy <;> simp [hn] at h1 ⊢
        · cases hn : joiningDate.truthy <;> simp [hn] at h1 ⊢
        · simpa using h2

theorem applyLeave_cases (dp : String → Option Int) (s : State)
    (employeeId startDate endDate : JVal) :
    (∃ code msg, applyLeave dp s employeeId startDate endDate = (.error code msg, s)) ∨
    ∃ employee start endD,
      employeeId.truthy = true ∧ startDate.truthy = true ∧ endDate.truthy = true ∧
      s.employees.find? (fun e => strictEqNum e.id employeeId) = some employee ∧
      newDate dp startDate = some start ∧ newDate dp endDate = some endD ∧
      start ≤ endD ∧ employee.joiningDate ≤ start ∧
      isOverlapping s.leaves employee.id start endD = false ∧
      exceedsBalance (getDaysBetween start endD) (getLeaveBalance s employee.id) = false ∧
      applyLeave dp s employeeId startDate endDate
        = (.leave (pendingLeave s employee.id start endD), applied s employee.id start endD) := by
  unfold applyLeave
  split
  · exact Or.inl ⟨_, _, rfl⟩
  · rename_i h1
    split
    · exact Or.inl ⟨_, _, rfl⟩
    · rename_i employee hfind
      split
      · rename_i start endD hs he
        split
        · exact Or.inl ⟨_, _, rfl⟩
        · rename_i h4
          split
          · exact Or.inl ⟨_, _, rfl⟩
          · rename_i h5
            split
            · exact Or.inl ⟨_, _, rfl⟩
            · rename_i h6
              simp only []
              split
              · exact Or.inl ⟨_, _, rfl⟩
              · rename_i h7
                right
                refine ⟨employee, start, endD, ?_, ?_, ?_, hfind, hs, he, by omega, by omega,
                  by simpa using h6, by simpa using h7, rfl⟩
                · cases hn : employeeId.truthy <;> simp [hn] at h1 ⊢
                · cases hn : startDate.truthy <;> simp [hn] at h1 ⊢
                · cases hn : endDate.truthy <;> simp [hn] at h1 ⊢
      · exact Or.inl ⟨_, _, rfl⟩

theorem decideLeave_cases (s : State) (leaveId : Option Int) (status : JVal) :
    (∃ code msg, decideLeave s leaveId status = (.error code msg, s)) ∨
    ∃ i st leave,
      leaveId = some i ∧ status = .str st ∧ (st = "Approved" ∨ st = "Rejected") ∧
      s.leaves.find? (fun l => decide (l.id = i)) = some leave ∧ leave.id = i ∧
      leave.status = "Pending" ∧
      (st = "Approved" →
        exceedsBalance (getDaysBetween leave.startDate leave.endDate)
          (getLeaveBalance s leave.employeeId) = false) ∧
      decideLeave s leaveId status
        = (.decision leave.id st (getLeaveBalance (decided s leave.id st) leave.employeeId),
           decided s leave.id st) := by
  unfold decideLeave
  split
  · rename_i st
    split
    · exact Or.inl ⟨_, _, rfl⟩
    · rename_i h1
      split
      · exact Or.inl ⟨_, _, rfl⟩
      · rename_i leave hfind
        split
        · exact Or.inl ⟨_, _, rfl⟩
        · rename_i h3
          split
          · exact Or.inl ⟨_, _, rfl⟩
          · rename_i h4
            right
            cases leaveId with
            | none => simp at hfind
            | some i =>
              simp only [Option.some_bind] at hfind
              have hid : leave.id = i := by simpa using List.find?_some hfind
              refine ⟨i, st, leave, rfl, rfl, ?_, hfind, hid, by simpa using h3, ?_, rfl⟩
              · have h1b : ¬ st = "Approved" → st = "Rejected" := by simpa using h1
                by_cases hq : st = "Approved"
                · exact Or.inl hq
                · exact Or.inr (h1b hq)
              · intro hst
                by_contra hc
                exact h4 ⟨hst, by simpa using hc⟩
  · exact Or.inl ⟨_, _, rfl⟩

theorem balanceOf_state (s : State) (employeeId : Option Int) :
    (balanceOf s employeeId).2 = s := by
  unfold balanceOf
  split <;> rfl

/-! ## Invariant of the reachable states -/

theorem inv_init : Inv State.init where
  empCounter := by simp [State.init]
  leaveCounter := by simp [State.init]
  empIds := by simp [State.init]
  empNodup := by simp [State.init]
  leaveIds := by simp [State.init]
  leaveNodup := by simp [State.init]
  leaveOk := by simp [State.init]
  allowance := by intro i; simp [State.init, usedDays_nil, ANNUAL_LEAVE_BALANCE]

theorem inv_registered {s : State} (h : Inv s) (name email department : JVal) (joining : Int) :
    Inv (registered s name email department joining) where
  empCounter := by have := h.empCounter; simp only [LeaveManagement.registered]; omega
  leaveCounter := h.leaveCounter
  empIds := by
    intro e he
    simp only [LeaveManagement.registered, List.mem_append, List.mem_singleton] at he ⊢
    rcases he with he | he
    · have := h.empIds e he; omega
    · subst he; have := h.empCounter; simp only; omega
  empNodup := by
    simp only [LeaveManagement.registered, List.map_append, List.map_cons, List.map_nil]
    rw [List.nodup_append]
    refine ⟨h.empNodup, by simp, ?_⟩
    intro a ha hb
    simp only [List.mem_singleton] at hb
    obtain ⟨e, he, rfl⟩ := List.mem_map.1 ha
    have := h.empIds e he
    omega
  leaveIds := h.leaveIds
  leaveNodup := h.leaveNodup
  leaveOk := by
    intro l hl
    obtain ⟨a, b, e, he, c⟩ := h.leaveOk l hl
    exact ⟨a, b, e, by simp [LeaveManagement.registered, he], c⟩
  allowance := h.allowance

theorem inv_applied {s : State} (h : Inv s) (employee : Employee) (start endD : Int)
    (he : employee ∈ s.employees) (h1 : start ≤ endD) (h2 : employee.joiningDate ≤ start) :
    Inv (applied s employee.id start endD) where
  empCounter := h.empCounter
  leaveCounter := by have := h.leaveCounter; simp only [LeaveManagement.applied]; omega
  empIds := h.empIds
  empNodup := h.empNodup
  leaveIds := by
    intro l hl
    simp only [LeaveManagement.applied, List.mem_append, List.mem_singleton] at hl ⊢
    rcases hl with hl | hl
    · have := h.leaveIds l hl; omega
    · subst hl; have := h.leaveCounter; simp only [pendingLeave]; omega
  leaveNodup := by
    simp only [LeaveManagement.applied, List.map_append, List.map_cons, List.map_nil]
    rw [List.nodup_append]
    refine ⟨h.leaveNodup, by simp, ?_⟩
    intro a ha hb
    simp only [List.mem_singleton, pendingLeave] at hb
    obtain ⟨l, hl, rfl⟩ := List.mem_map.1 ha
    have := h.leaveIds l hl
    omega
  leaveOk := by
    intro l hl
    simp only [LeaveManagement.applied, List.mem_append, List.mem_singleton] at hl ⊢
    rcases hl with hl | hl
    · exact h.leaveOk l hl
    · subst hl
      exact ⟨h1, Or.inl rfl, employee, he, rfl, h2⟩
  allowance := by
    intro i
    simp only [LeaveManagement.applied]
    rw [usedDays_append_pending _ _ _ rfl]
    exact h.allowance i

theorem getLeaveBalance_of_mem {s : State} (h : Inv s) (e : Employee) (he : e ∈ s.employees) :
    getLeaveBalance s e.id = some (ANNUAL_LEAVE_BALANCE - usedDays s.leaves e.id) := by
  simp [getLeaveBalance, findEmployee_of_mem _ _ h.empNodup he]

theorem getLeaveBalance_of_leave {s : State} (h : Inv s) (l : Leave) (hl : l ∈ s.leaves) :
    getLeaveBalance s l.employeeId
      = some (ANNUAL_LEAVE_BALANCE - usedDays s.leaves l.employeeId) := by
  obtain ⟨_, _, e, he, hid, _⟩ := h.leaveOk l hl
  rw [← hid]
  exact getLeaveBalance_of_mem h e he

theorem inv_decided {s : State} (h : Inv s) (i : Int) (st : String) (leave : Leave)
    (hf : s.leaves.find? (fun l => decide (l.id = i)) = some leave)
    (hst : st = "Approved" ∨ st = "Rejected") (hp : leave.status = "Pending")
    (hb : st = "Approved" →
      exceedsBalance (getDaysBetween leave.startDate leave.endDate)
        (getLeaveBalance s leave.employeeId) = false) :
    Inv (decided s i st) where
  empCounter := h.empCounter
  leaveCounter := h.leaveCounter
  empIds := h.empIds
  empNodup := h.empNodup
  leaveIds := by
    intro l hl
    rcases setStatus_mem _ _ _ _ hl with hl | ⟨l0, hl0, _, rfl⟩
    · exact h.leaveIds l hl
    · exact h.leaveIds l0 hl0
  leaveNodup := by
    simp only [LeaveManagement.decided, setStatus_map_id]
    exact h.leaveNodup
  leaveOk := by
    intro l hl
    rcases setStatus_mem _ _ _ _ hl with hl | ⟨l0, hl0, _, rfl⟩
    · exact h.leaveOk l hl
    · obtain ⟨a, _, c⟩ := h.leaveOk l0 hl0
      refine ⟨a, ?_, c⟩
      rcases hst with hst | hst
      · exact Or.inr (Or.inl hst)
      · exact Or.inr (Or.inr hst)
  allowance := by
    intro e
    have hmem : leave ∈ s.leaves := List.mem_of_find?_eq_some hf
    simp only [LeaveManagement.decided]
    rw [usedDays_setStatus _ _ _ _ hf (by rw [hp]; decide)]
    have hall := h.allowance e
    split
    · rename_i hc
      have hb2 := hb hc.2
      rw [getLeaveBalance_of_leave h leave hmem] at hb2
      simp only [exceedsBalance, decide_eq_false_iff_not] at hb2
      rw [hc.1] at hb2
      omega
    · omega

/-- Every handler preserves the invariant. -/
theorem inv_step (dp : String → Option Int) (s : State) (r : Request) (h : Inv s) :
    Inv (step dp s r).2 := by
  cases r with
  | register name email department joiningDate =>
    rcases register_cases dp s name email department joiningDate with ⟨m, hm⟩ | ⟨j, _, _, _, _, _, _, hj⟩
    · simp only [LeaveManagement.step, hm]; exact h
    · simp only [LeaveManagement.step, hj]; exact inv_registered h _ _ _ _
  | apply employeeId startDate endDate =>
    rcases applyLeave_cases dp s employeeId startDate endDate with
      ⟨c, m, hm⟩ | ⟨e, a, b, _, _, _, hf, _, _, h1, h2, _, _, hj⟩
    · simp only [LeaveManagement.step, hm]; exact h
    · simp only [LeaveManagement.step, hj]
      exact inv_applied h e a b (find?_strictEqNum _ _ _ hf).1 h1 h2
  | decide leaveId status =>
    rcases decideLeave_cases s leaveId status with
      ⟨c, m, hm⟩ | ⟨i, st, leave, _, _, hst, hf, hid, hp, hb, hj⟩
    · simp only [LeaveManagement.step, hm]; exact h
    · simp only [LeaveManagement.step, hj, hid]
      exact inv_decided h i st leave hf hst hp hb
  | balance employeeId =>
    simp only [LeaveManagement.step, balanceOf_state]; exact h

/-- The invariant holds in every reachable state. -/
theorem reachable_inv {dp : String → Option Int} {s : State} (h : Reachable dp s) : Inv s :=
  reachable_induction Inv inv_init (fun s r hs => inv_step dp s r hs) s h

/-! ## Outcome of the handlers under their guards -/

theorem msPerDay_eq : msPerDay = 86400000 := by decide

theorem getDaysBetween_pos (a b : Int) (h : a ≤ b) : 1 ≤ getDaysBetween a b := by
  unfold getDaysBetween
  rw [msPerDay_eq]
  omega

theorem usedDays_eq_sum (ls : List Leave) (employeeId : Int) :
    usedDays ls employeeId
      = ((ls.filter (fun l => decide (l.employeeId = employeeId) &&
            decide (l.status = "Approved"))).map
          (fun l => getDaysBetween l.startDate l.endDate)).sum := by
  induction ls with
  | nil => rfl
  | cons l ls ih =>
    rw [usedDays_cons, ih, contribution]
    by_cases h : l.employeeId = employeeId ∧ l.status = "Approved"
    · simp [List.filter_cons, h.1, h.2]
    · rw [if_neg h]
      have hb : (decide (l.employeeId = employeeId) && decide (l.status = "Approved")) = false := by
        simpa using h
      simp [List.filter_cons, hb]

theorem usedDays_eq_zero (ls : List Leave) (employeeId : Int)
    (h : ∀ l ∈ ls, l.employeeId = employeeId → l.status ≠ "Approved") :
    usedDays ls employeeId = 0 := by
  induction ls with
  | nil => rfl
  | cons l ls ih =>
    rw [usedDays_cons, ih (fun x hx => h x (List.mem_cons_of_mem _ hx)), contribution]
    have := h l (List.mem_cons_self _ _)
    by_cases hl : l.employeeId = employeeId
    · simp [hl, this hl]
    · simp [hl]

theorem isOverlapping_eq_false_iff (ls : List Leave) (employeeId a b : Int) :
    isOverlapping ls employeeId a b = false ↔
      ∀ l ∈ ls, l.employeeId = employeeId → l.status ≠ "Rejected" →
        ¬ (a ≤ l.endDate ∧ b ≥ l.startDate) := by
  unfold isOverlapping
  rw [List.any_eq_false]
  constructor
  · intro h l hl h1 h2 h3
    have := h l hl
    simp [h1, h2, h3.1, h3.2] at this
  · intro h l hl
    have := h l hl
    by_contra hc
    simp only [Bool.not_eq_false, Bool.and_eq_true, decide_eq_true_eq] at hc
    exact this hc.1.1 hc.1.2 ⟨hc.2.1, hc.2.2⟩

theorem isOverlapping_eq_true_iff (ls : List Leave) (employeeId a b : Int) :
    isOverlapping ls employeeId a b = true ↔
      ∃ l ∈ ls, l.employeeId = employeeId ∧ l.status ≠ "Rejected" ∧
        a ≤ l.endDate ∧ b ≥ l.startDate := by
  unfold isOverlapping
  rw [List.any_eq_true]
  constructor
  · rintro ⟨l, hl, h⟩
    simp only [Bool.and_eq_true, decide_eq_true_eq] at h
    exact ⟨l, hl, h.1.1, h.1.2, h.2.1, h.2.2⟩
  · rintro ⟨l, hl, h1, h2, h3, h4⟩
    exact ⟨l, hl, by simp [h1, h2, h3, h4]⟩

/-- The part of `applyLeave` after the presence, existence and parsing checks. -/
theorem applyLeave_eq (dp : String → Option Int) (s : State)
    (employeeId startDate endDate : JVal) (employee : Employee) (start endD : Int)
    (h1 : employeeId.truthy = true) (h2 : startDate.truthy = true) (h3 : endDate.truthy = true)
    (hf : s.employees.find? (fun e => strictEqNum e.id employeeId) = some employee)
    (hs : newDate dp startDate = some start) (he : newDate dp endDate = some endD) :
    applyLeave dp s employeeId startDate endDate =
      if endD < start then (.error 400 "endDate cannot be before startDate.", s)
      else if start < employee.joiningDate then
        (.error 400 "Cannot apply leave before joining date.", s)
      else if isOverlapping s.leaves employee.id start endD then
        (.error 400 "Leave request overlaps with existing leave.", s)
      else if exceedsBalance (getDaysBetween start endD) (getLeaveBalance s employee.id) then
        (.error 400 "Leave days exceed available leave balance.", s)
      else (.leave (pendingLeave s employee.id start endD), applied s employee.id start endD) := by
  unfold applyLeave
  simp only [h1, h2, h3, hf, hs, he, Bool.not_true, Bool.or_self, Bool.false_eq_true, if_false]
  rfl

theorem applyLeave_missing (dp : String → Option Int) (s : State)
    (employeeId startDate endDate : JVal)
    (h : employeeId.truthy = false ∨ startDate.truthy = false ∨ endDate.truthy = false) :
    applyLeave dp s employeeId startDate endDate
      = (.error 400 "employeeId, startDate and endDate are required.", s) := by
  unfold applyLeave
  rcases h with h | h | h <;> simp [h]

theorem applyLeave_unknown (dp : String → Option Int) (s : State)
    (employeeId startDate endDate : JVal)
    (h1 : employeeId.truthy = true) (h2 : startDate.truthy = true) (h3 : endDate.truthy = true)
    (hf : s.employees.find? (fun e => strictEqNum e.id employeeId) = none) :
    applyLeave dp s employeeId startDate endDate = (.error 404 "Employee not found.", s) := by
  unfold applyLeave
  simp only [h1, h2, h3, hf, Bool.not_true, Bool.or_self, Bool.false_eq_true, if_false]

theorem applyLeave_invalid (dp : String → Option Int) (s : State)
    (employeeId startDate endDate : JVal) (employee : Employee)
    (h1 : employeeId.truthy = true) (h2 : startDate.truthy = true) (h3 : endDate.truthy = true)
    (hf : s.employees.find? (fun e => strictEqNum e.id employeeId) = some employee)
    (hd : newDate dp startDate = none ∨ newDate dp endDate = none) :
    applyLeave dp s employeeId startDate endDate = (.error 400 "Invalid date format.", s) := by
  unfold applyLeave
  simp only [h1, h2, h3, hf, Bool.not_true, Bool.or_self, Bool.false_eq_true, if_false]
  rcases hd with hd | hd
  · simp [hd]
  · cases hx : newDate dp startDate <;> simp [hd]

/-- The part of `decideLeave` after the status and existence checks. -/
theorem decideLeave_eq (s : State) (i : Int) (st : String) (leave : Leave)
    (hst : st = "Approved" ∨ st = "Rejected")
    (hf : s.leaves.find? (fun l => decide (l.id = i)) = some leave) :
    decideLeave s (some i) (.str st) =
      if leave.status ≠ "Pending" then (.error 400 "Leave request is already processed.", s)
      else if st = "Approved" ∧
          exceedsBalance (getDaysBetween leave.startDate leave.endDate)
            (getLeaveBalance s leave.employeeId) = true then
        (.error 400 "Insufficient leave balance to approve.", s)
      else
        (.decision leave.id st (getLeaveBalance (decided s leave.id st) leave.employeeId),
          decided s leave.id st) := by
  unfold decideLeave
  have hc : (["Approved", "Rejected"].contains st) = true := by
    rcases hst with h | h <;> subst h <;> decide
  simp only [hc, Bool.not_true, Bool.false_eq_true, if_false, Option.some_bind, hf]
  rfl

theorem decideLeave_badStatus (s : State) (leaveId : Option Int) (status : JVal)
    (h : status ≠ .str "Approved" ∧ status ≠ .str "Rejected") :
    decideLeave s leaveId status = (.error 400 "Status must be Approved or Rejected.", s) := by
  unfold decideLeave
  cases status with
  | str st =>
    have h1 : st ≠ "Approved" := fun hh => h.1 (by rw [hh])
    have h2 : st ≠ "Rejected" := fun hh => h.2 (by rw [hh])
    simp [h1, h2]
  | _ => rfl

theorem decideLeave_unknown (s : State) (leaveId : Option Int) (st : String)
    (hst : st = "Approved" ∨ st = "Rejected")
    (hf : leaveId.bind (fun i => s.leaves.find? (fun l => decide (l.id = i))) = none) :
    decideLeave s leaveId (.str st) = (.error 404 "Leave request not found.", s) := by
  unfold decideLeave
  have hc : (["Approved", "Rejected"].contains st) = true := by
    rcases hst with h | h <;> subst h <;> decide
  simp only [hc, Bool.not_true, Bool.false_eq_true, if_false, hf]

/-- One request changes a stored leave request at most by turning its status from
`Pending` into `Approved` or `Rejected`; its position in `leaves` is kept. -/
theorem step_getElem? (dp : String → Option Int) (s : State) (r : Request) (i : Nat)
    (l : Leave) (hl : s.leaves[i]? = some l) :
    (step dp s r).2.leaves[i]? = some l ∨
      (l.status = "Pending" ∧ ∃ st, (st = "Approved" ∨ st = "Rejected") ∧
        (step dp s r).2.leaves[i]? = some { l with status := st }) := by
  cases r with
  | register name email department joiningDate =>
    rcases register_cases dp s name email department joiningDate with
      ⟨m, hm⟩ | ⟨j, _, _, _, _, _, _, hj⟩
    · left; simpa only [step, hm] using hl
    · left; simpa only [step, hj] using hl
  | apply employeeId startDate endDate =>
    rcases applyLeave_cases dp s employeeId startDate endDate with
      ⟨c, m, hm⟩ | ⟨e, a, b, _, _, _, _, _, _, _, _, _, _, hj⟩
    · left; simpa only [step, hm] using hl
    · left
      simp only [step, hj, applied]
      have hi : i < s.leaves.length := (List.getElem?_eq_some.1 hl).1
      rw [List.getElem?_append_left hi]
      exact hl
  | decide leaveId status =>
    rcases decideLeave_cases s leaveId status with
      ⟨c, m, hm⟩ | ⟨k, st, leave, _, _, hst, hf, hid, hp, _, hj⟩
    · left; simpa only [step, hm] using hl
    · simp only [step, hj, decided, hid]
      rcases setStatus_getElem? s.leaves k st leave hf i l hl with h | ⟨h1, h2⟩
      · exact Or.inl h
      · exact Or.inr ⟨h1 ▸ hp, st, hst, h2⟩
  | balance employeeId =>
    left; simpa only [step, balanceOf_state] using hl

theorem step_error_state (dp : String → Option Int) (s : State) (r : Request)
    (code : Nat) (msg : String) (h : (step dp s r).1 = .error code msg) :
    (step dp s r).2 = s := by
  cases r with
  | register name email department joiningDate =>
    rcases register_cases dp s name email department joiningDate with
      ⟨m, hm⟩ | ⟨j, _, _, _, _, _, _, hj⟩
    · simp only [step, hm]
    · simp [step, hj] at h
  | apply employeeId startDate endDate =>
    rcases applyLeave_cases dp s employeeId startDate endDate with
      ⟨c, m, hm⟩ | ⟨e, a, b, _, _, _, _, _, _, _, _, _, _, hj⟩
    · simp only [step, hm]
    · simp [step, hj] at h
  | decide leaveId status =>
    rcases decideLeave_cases s leaveId status with
      ⟨c, m, hm⟩ | ⟨k, st, leave, _, _, _, _, _, _, _, hj⟩
    · simp only [step, hm]
    · simp [step, hj] at h
  | balance employeeId => simp only [step, balanceOf_state]

/-! ## The handlers in a state that satisfies the invariant -/

theorem find?_employee_of_mem {s : State} (h : Inv s) (e : Employee) (he : e ∈ s.employees) :
    s.employees.find? (fun x => strictEqNum x.id (.num e.id)) = some e ∧
      (JVal.num e.id).truthy = true := by
  refine ⟨by rw [find?_strictEqNum_num]; exact findEmployee_of_mem _ _ h.empNodup he, ?_⟩
  have := h.empIds e he
  simp only [JVal.truthy, decide_eq_true_eq]
  omega

/-- The answer of `applyLeave` for a registered employee and two supplied, parsed dates. -/
theorem applyLeave_of_mem (dp : String → Option Int) {s : State} (h : Inv s) (e : Employee)
    (he : e ∈ s.employees) (startDate endDate : JVal) (start endD : Int)
    (h2 : startDate.truthy = true) (h3 : endDate.truthy = true)
    (hs : newDate dp startDate = some start) (hd : newDate dp endDate = some endD) :
    applyLeave dp s (.num e.id) startDate endDate =
      if endD < start then (.error 400 "endDate cannot be before startDate.", s)
      else if start < e.joiningDate then
        (.error 400 "Cannot apply leave before joining date.", s)
      else if isOverlapping s.leaves e.id start endD then
        (.error 400 "Leave request overlaps with existing leave.", s)
      else if getDaysBetween start endD > ANNUAL_LEAVE_BALANCE - usedDays s.leaves e.id then
        (.error 400 "Leave days exceed available leave balance.", s)
      else (.leave (pendingLeave s e.id start endD), applied s e.id start endD) := by
  obtain ⟨hf, h1⟩ := find?_employee_of_mem h e he
  rw [applyLeave_eq dp s _ _ _ e start endD h1 h2 h3 hf hs hd, getLeaveBalance_of_mem h e he]
  simp only [exceedsBalance, decide_eq_true_eq]

/-- The answer of `decideLeave` on the id of a stored request, with target `Approved` or
`Rejected`. -/
theorem decideLeave_of_mem {s : State} (h : Inv s) (r : Leave) (hr : r ∈ s.leaves)
    (st : String) (hst : st = "Approved" ∨ st = "Rejected") :
    decideLeave s (some r.id) (.str st) =
      if r.status ≠ "Pending" then (.error 400 "Leave request is already processed.", s)
      else if st = "Approved" ∧
          getDaysBetween r.startDate r.endDate
            > ANNUAL_LEAVE_BALANCE - usedDays s.leaves r.employeeId then
        (.error 400 "Insufficient leave balance to approve.", s)
      else
        (.decision r.id st
            (some (ANNUAL_LEAVE_BALANCE - usedDays s.leaves r.employeeId
              - (if st = "Approved" then getDaysBetween r.startDate r.endDate else 0))),
          decided s r.id st) := by
  have hf := find?_id_of_mem s.leaves r h.leaveNodup hr
  rw [decideLeave_eq s r.id st r hst hf, getLeaveBalance_of_leave h r hr]
  simp only [exceedsBalance, decide_eq_true_eq]
  by_cases hp : r.status = "Pending"
  · simp only [hp, ne_eq, not_true_eq_false, if_false]
    by_cases hx : st = "Approved" ∧
        getDaysBetween r.startDate r.endDate
          > ANNUAL_LEAVE_BALANCE - usedDays s.leaves r.employeeId
    · rw [if_pos hx, if_pos hx]
    · rw [if_neg hx, if_neg hx]
      obtain ⟨_, _, e, he, hid, _⟩ := h.leaveOk r hr
      have hbal : getLeaveBalance (decided s r.id st) r.employeeId
          = some (ANNUAL_LEAVE_BALANCE - usedDays (setStatus s.leaves r.id st) r.employeeId) := by
        have hfe : findEmployee s.employees r.employeeId = some e := by
          rw [← hid]; exact findEmployee_of_mem _ _ h.empNodup he
        simp only [getLeaveBalance, decided, hfe]
      rw [hbal, usedDays_setStatus _ _ _ _ hf (by rw [hp]; decide)]
      simp only [true_and]
      by_cases hq : st = "Approved"
      · simp only [hq, if_true]
        congr 3
        omega
      · simp only [hq, if_false]
        congr 3
        omega
  · simp [hp]

theorem mem_setStatus_of_ne (ls : List Leave) (i : Int) (st : String) (l : Leave)
    (hl : l ∈ ls) (hne : l.id ≠ i) : l ∈ setStatus ls i st := by
  induction ls with
  | nil => simp at hl
  | cons a ls ih =>
    unfold setStatus
    split
    · rename_i ha
      rcases List.mem_cons.1 hl with h | h
      · subst h; exact absurd ha hne
      · exact List.mem_cons_of_mem _ h
    · rcases List.mem_cons.1 hl with h | h
      · subst h; exact List.mem_cons_self _ _
      · exact List.mem_cons_of_mem _ (ih h)

theorem getLeaveBalance_of_find? (s : State) (v : JVal) (employee : Employee)
    (hf : s.employees.find? (fun e => strictEqNum e.id v) = some employee) :
    getLeaveBalance s employee.id
      = some (ANNUAL_LEAVE_BALANCE - usedDays s.leaves employee.id) := by
  obtain ⟨_, hv⟩ := find?_strictEqNum _ _ _ hf
  subst hv
  rw [find?_strictEqNum_num] at hf
  simp only [getLeaveBalance, hf]

theorem balanceOf_of_mem {s : State} (h : Inv s) (e : Employee) (he : e ∈ s.employees) :
    balanceOf s (some e.id) = (.balance e.id (getLeaveBalance s e.id), s) := by
  simp only [balanceOf, Option.some_bind, findEmployee_of_mem _ _ h.empNodup he]

theorem getLeaveBalance_decided (s : State) (i : Int) (st : String) (leave : Leave)
    (hf : s.leaves.find? (fun l => decide (l.id = i)) = some leave)
    (hs : leave.status ≠ "Approved") (hst : st ≠ "Approved") (employeeId : Int) :
    getLeaveBalance (decided s i st) employeeId = getLeaveBalance s employeeId := by
  simp only [getLeaveBalance, decided]
  rw [usedDays_setStatus _ _ _ _ hf hs]
  simp [hst]

theorem isOverlapping_filter (leaves : List Leave) (employeeId a b : Int) :
    isOverlapping leaves employeeId a b
      = isOverlapping (leaves.filter (fun l => decide (l.employeeId = employeeId)))
          employeeId a b := by
  induction leaves with
  | nil => rfl
  | cons l ls ih =>
    unfold isOverlapping at ih ⊢
    by_cases hl : l.employeeId = employeeId
    · simp only [List.filter_cons, hl, decide_True, if_true, List.any_cons, ih]
    · simp only [List.filter_cons, hl, decide_False, List.any_cons, Bool.false_and,
        Bool.false_or, ih]
      simp

/-! ## Ids by position, distinct emails, disjoint ranges -/

theorem getElem?_append_singleton {α : Type} (ls : List α) (x a : α) (i : Nat)
    (h : (ls ++ [x])[i]? = some a) :
    ls[i]? = some a ∨ (i = ls.length ∧ a = x) := by
  by_cases hi : i < ls.length
  · rw [List.getElem?_append_left hi] at h
    exact Or.inl h
  · right
    rw [List.getElem?_append_right (by omega)] at h
    have hlt : i - ls.length < 1 := by
      by_contra hc
      rw [List.getElem?_eq_none (by simp; omega)] at h
      simp at h
    have h0 : i - ls.length = 0 := by omega
    rw [h0] at h
    simp only [List.getElem?_cons_zero, Option.some.injEq] at h
    exact ⟨by omega, h.symm⟩

theorem getElem?_lt_length {α : Type} (ls : List α) (a : α) (i : Nat)
    (h : ls[i]? = some a) : i < ls.length :=
  (List.getElem?_eq_some.1 h).1

/-- Position by position, what `setStatus` returns comes from the list it was given. -/
theorem setStatus_getElem?_inv (ls : List Leave) (i : Int) (st : String) (leave : Leave)
    (hf : ls.find? (fun l => decide (l.id = i)) = some leave) (j : Nat) (l' : Leave)
    (hj : (setStatus ls i st)[j]? = some l') :
    ∃ l, ls[j]? = some l ∧ (l' = l ∨ (l = leave ∧ l' = { l with status := st })) := by
  have hlen : j < ls.length := by
    have := getElem?_lt_length _ _ _ hj
    rwa [setStatus_length] at this
  have hl : ls[j]? = some ls[j] := List.getElem?_eq_getElem hlen
  refine ⟨ls[j], hl, ?_⟩
  rcases setStatus_getElem? ls i st leave hf j _ hl with h | ⟨h1, h2⟩
  · left
    rw [h] at hj
    exact (Option.some.inj hj).symm
  · right
    rw [h2] at hj
    exact ⟨h1, (Option.some.inj hj).symm⟩

theorem storeInv_init : StoreInv State.init where
  empCount := by simp [State.init]
  empPos := by simp [State.init]
  leaveCount := by simp [State.init]
  leavePos := by simp [State.init]
  emails := by simp [State.init]
  disjoint := by simp [State.init]

theorem storeInv_registered {s : State} (h : StoreInv s) (name email department : JVal)
    (joining : Int) (hnew : ∀ e ∈ s.employees, e.email ≠ email) :
    StoreInv (registered s name email department joining) where
  empCount := by
    have := h.empCount
    simp only [registered, List.length_append, List.length_singleton, Nat.cast_add,
      Nat.cast_one]
    omega
  empPos := by
    intro i e he
    rcases getElem?_append_singleton _ _ _ _ he with he | ⟨hi, rfl⟩
    · exact h.empPos i e he
    · have := h.empCount
      simp only [hi]
      omega
  leaveCount := h.leaveCount
  leavePos := h.leavePos
  emails := by
    simp only [registered, List.map_append, List.map_cons, List.map_nil]
    rw [List.nodup_append]
    refine ⟨h.emails, by simp, ?_⟩
    intro a ha hb
    simp only [List.mem_singleton] at hb
    obtain ⟨e, he, rfl⟩ := List.mem_map.1 ha
    exact hnew e he hb
  disjoint := h.disjoint

theorem storeInv_applied {s : State} (h : StoreInv s) (employeeId start endD : Int)
    (ho : isOverlapping s.leaves employeeId start endD = false) :
    StoreInv (applied s employeeId start endD) where
  empCount := h.empCount
  empPos := h.empPos
  leaveCount := by
    have := h.leaveCount
    simp only [applied, List.length_append, List.length_singleton, Nat.cast_add,
      Nat.cast_one]
    omega
  leavePos := by
    intro i l hl
    rcases getElem?_append_singleton _ _ _ _ hl with hl | ⟨hi, rfl⟩
    · exact h.leavePos i l hl
    · have := h.leaveCount
      simp only [hi, pendingLeave]
      omega
  emails := h.emails
  disjoint := by
    intro i j a b hij ha hb
    have hfree := (isOverlapping_eq_false_iff _ _ _ _).1 ho
    rcases getElem?_append_singleton _ _ _ _ ha with ha | ⟨hi, rfl⟩
    · rcases getElem?_append_singleton _ _ _ _ hb with hb | ⟨hj, rfl⟩
      · exact h.disjoint i j a b hij ha hb
      · rintro ⟨h1, h2, _, h4, h5⟩
        exact hfree a (List.getElem?_mem ha) h1 h2 ⟨h5, h4⟩
    · rcases getElem?_append_singleton _ _ _ _ hb with hb | ⟨hj, rfl⟩
      · rintro ⟨h1, _, h3, h4, h5⟩
        exact hfree b (List.getElem?_mem hb) h1.symm h3 ⟨h4, h5⟩
      · omega

theorem storeInv_decided {s : State} (h : StoreInv s) (i : Int) (st : String) (leave : Leave)
    (hf : s.leaves.find? (fun l => decide (l.id = i)) = some leave)
    (hp : leave.status = "Pending") :
    StoreInv (decided s i st) where
  empCount := h.empCount
  empPos := h.empPos
  leaveCount := by
    have := h.leaveCount
    simp only [decided, setStatus_length]
    exact this
  leavePos := by
    intro j l hl
    obtain ⟨l0, hl0, hc | ⟨_, hc⟩⟩ := setStatus_getElem?_inv _ _ _ _ hf j l hl
    · rw [hc]; exact h.leavePos j l0 hl0
    · rw [hc]; exact h.leavePos j l0 hl0
  emails := h.emails
  disjoint := by
    intro j k a b hjk ha hb
    obtain ⟨a0, ha0, hac⟩ := setStatus_getElem?_inv _ _ _ _ hf j a ha
    obtain ⟨b0, hb0, hbc⟩ := setStatus_getElem?_inv _ _ _ _ hf k b hb
    have hold := h.disjoint j k a0 b0 hjk ha0 hb0
    have hpr : ("Pending" : String) ≠ "Rejected" := by decide
    rintro ⟨h1, h2, h3, h4, h5⟩
    apply hold
    rcases hac with rfl | ⟨hal, rfl⟩ <;> rcases hbc with rfl | ⟨hbl, rfl⟩
    · exact ⟨h1, h2, h3, h4, h5⟩
    · exact ⟨h1, h2, by rw [hbl, hp]; exact hpr, h4, h5⟩
    · exact ⟨h1, by rw [hal, hp]; exact hpr, h3, h4, h5⟩
    · exact ⟨h1, by rw [hal, hp]; exact hpr, by rw [hbl, hp]; exact hpr, h4, h5⟩

theorem storeInv_step (dp : String → Option Int) (s : State) (r : Request) (h : StoreInv s) :
    StoreInv (step dp s r).2 := by
  cases r with
  | register name email department joiningDate =>
    rcases register_cases dp s name email department joiningDate with
      ⟨m, hm⟩ | ⟨j, _, _, _, _, _, hnew, hj⟩
    · simp only [step, hm]; exact h
    · simp only [step, hj]; exact storeInv_registered h _ _ _ _ hnew
  | apply employeeId startDate endDate =>
    rcases applyLeave_cases dp s employeeId startDate endDate with
      ⟨c, m, hm⟩ | ⟨e, a, b, _, _, _, _, _, _, _, _, ho, _, hj⟩
    · simp only [step, hm]; exact h
    · simp only [step, hj]; exact storeInv_applied h e.id a b ho
  | decide leaveId status =>
    rcases decideLeave_cases s leaveId status with
      ⟨c, m, hm⟩ | ⟨i, st, leave, _, _, _, hf, hid, hp, _, hj⟩
    · simp only [step, hm]; exact h
    · simp only [step, hj, hid]; exact storeInv_decided h i st leave hf hp
  | balance employeeId =>
    simp only [step, balanceOf_state]; exact h

theorem reachable_storeInv {dp : String → Option Int} {s : State} (h : Reachable dp s) :
    StoreInv s :=
  reachable_induction StoreInv storeInv_init (fun s r hs => storeInv_step dp s r hs) s h

theorem countP_id_of_mem (es : List Employee) (hn : (es.map (fun x => x.id)).Nodup)
    (e : Employee) (he : e ∈ es) :
    es.countP (fun x => decide (x.id = e.id)) = 1 := by
  induction es with
  | nil => simp at he
  | cons a es ih =>
    simp only [List.map_cons, List.nodup_cons] at hn
    rcases List.mem_cons.1 he with h | h
    · subst h
      have h0 : es.countP (fun x => decide (x.id = e.id)) = 0 := by
        rw [List.countP_eq_zero]
        intro x hx hq
        exact hn.1 (by
          have hq' : x.id = e.id := by simpa using hq
          rw [← hq']
          exact List.mem_map_of_mem (fun y => y.id) hx)
      simp [List.countP_cons, h0]
    · have hne : a.id ≠ e.id := by
        intro hq
        exact hn.1 (hq ▸ List.mem_map_of_mem (fun x => x.id) h)
      simp [List.countP_cons, hne, ih hn.2 h]

theorem pairwise_of_position {α : Type} (ls : List α) (f : α → Int)
    (h : ∀ (i : Nat) (a : α), ls[i]? = some a → f a = (i : Int) + 1) :
    ls.Pairwise (fun a b => f a < f b) := by
  rw [List.pairwise_iff_getElem]
  intro i j hi hj hij
  rw [h i ls[i] (List.getElem?_eq_getElem hi), h j ls[j] (List.getElem?_eq_getElem hj)]
  omega

/-- A request either registers an employee under the next id, or leaves `employees`
and `employeeIdCounter` as they are. -/
theorem step_register_cases (dp : String → Option Int) (s : State) (r : Request) :
    (∃ e, (step dp s r).1 = .employee e ∧ e.id = s.employeeIdCounter ∧
      (step dp s r).2.employeeIdCounter = s.employeeIdCounter + 1 ∧
      (step dp s r).2.employees = s.employees ++ [e]) ∨
    ((∀ e, (step dp s r).1 ≠ .employee e) ∧
      (step dp s r).2.employeeIdCounter = s.employeeIdCounter ∧
      (step dp s r).2.employees = s.employees) := by
  cases r with
  | register name email department joiningDate =>
    rcases register_cases dp s name email department joiningDate with
      ⟨m, hm⟩ | ⟨j, _, _, _, _, _, _, hj⟩
    · right; simp [step, hm]
    · left
      exact ⟨{ id := s.employeeIdCounter, name := name, email := email,
               department := department, joiningDate := j,
               leaveBalance := ANNUAL_LEAVE_BALANCE },
        by simp only [step, hj], rfl, by simp only [step, hj, registered],
        by simp only [step, hj, registered]⟩
  | apply employeeId startDate endDate =>
    rcases applyLeave_cases dp s employeeId startDate endDate with
      ⟨c, m, hm⟩ | ⟨e, a, b, _, _, _, _, _, _, _, _, _, _, hj⟩
    · right; simp [step, hm]
    · right; simp [step, hj, applied]
  | decide leaveId status =>
    rcases decideLeave_cases s leaveId status with
      ⟨c, m, hm⟩ | ⟨i, st, leave, _, _, _, _, _, _, _, hj⟩
    · right; simp [step, hm]
    · right; simp [step, hj, decided]
  | balance employeeId =>
    right
    simp only [step, balanceOf]
    split <;> simp

theorem registeredIds_from (dp : String → Option Int) (rs : List Request) (s : State) :
    registeredIds dp s rs
      = (List.range (registeredIds dp s rs).length).map
          (fun k : Nat => s.employeeIdCounter + (k : Int)) := by
  induction rs generalizing s with
  | nil => simp [registeredIds]
  | cons r rs ih =>
    rcases step_register_cases dp s r with ⟨e, h1, h2, h3, _⟩ | ⟨h1, h2, _⟩
    · have hu : registeredIds dp s (r :: rs)
          = e.id :: registeredIds dp (step dp s r).2 rs := by
        simp only [registeredIds, h1]
      have hi := ih (step dp s r).2
      rw [h3] at hi
      rw [hu, List.length_cons, List.range_succ_eq_map]
      simp only [List.map_cons, List.map_map]
      congr 1
      · simp [h2]
      · rw [hi]
        simp only [List.length_map, List.length_range]
        apply List.map_congr_left
        intro k _
        simp only [Function.comp, Nat.cast_succ]
        omega
    · have hu : registeredIds dp s (r :: rs) = registeredIds dp (step dp s r).2 rs := by
        rw [registeredIds]
        split
        · rename_i e he
          exact absurd he (h1 e)
        · rfl
      rw [hu]
      have hi := ih (step dp s r).2
      rw [h2] at hi
      exact hi

theorem ne_of_nodup_map {α β : Type} (ls : List α) (f : α → β) (hn : (ls.map f).Nodup)
    (i j : Nat) (a b : α) (hij : i ≠ j) (ha : ls[i]? = some a) (hb : ls[j]? = some b) :
    f a ≠ f b := by
  intro hab
  obtain ⟨hi, hai⟩ := List.getElem?_eq_some.1 ha
  obtain ⟨hj, hbj⟩ := List.getElem?_eq_some.1 hb
  have hi' : i < (ls.map f).length := by simpa using hi
  have hj' : j < (ls.map f).length := by simpa using hj
  have heq : (ls.map f)[i] = (ls.map f)[j] := by
    simp only [List.getElem_map, hai, hbj, hab]
  exact hij (hn.getElem_inj_iff.1 heq)

/-! # The claims -/

/-- C1 (allowance invariant). In every state reachable from the empty store by a
finite sequence of register, apply, decide and balance requests, for every employee
id the sum of `getDaysBetween(startDate, endDate)` over the `Approved` requests of
that employee is at most 20; `getLeaveBalance` is that sum subtracted from 20, so
whenever it returns a number the number is at least 0, and it returns a number for
every registered employee. -/
theorem allowance_invariant (dp : String → Option Int) (s : State) (h : Reachable dp s)
    (employeeId : Int) :
    ((s.leaves.filter (fun l => decide (l.employeeId = employeeId) &&
          decide (l.status = "Approved"))).map
        (fun l => getDaysBetween l.startDate l.endDate)).sum ≤ 20 ∧
    (∀ b, getLeaveBalance s employeeId = some b → 0 ≤ b) ∧
    (∀ e ∈ s.employees, ∃ b, getLeaveBalance s e.id = some b ∧ 0 ≤ b) := by
  have hinv := reachable_inv h
  have hall : ∀ i, usedDays s.leaves i ≤ 20 := hinv.allowance
  refine ⟨?_, ?_, ?_⟩
  · rw [← usedDays_eq_sum]; exact hall employeeId
  · intro b hb
    unfold getLeaveBalance at hb
    split at hb
    · simp at hb
    · have := hall employeeId
      simp only [Option.some.injEq, ANNUAL_LEAVE_BALANCE] at hb
      omega
  · intro e he
    refine ⟨_, getLeaveBalance_of_mem hinv e he, ?_⟩
    have := hall e.id
    simp only [ANNUAL_LEAVE_BALANCE]
    omega

/-- C1 at the state where Ann has one approved request of 15 days and one pending
request of 10 days. -/
theorem allowance_invariant_witness :
    (((run isoDate State.init scenarioApproved).leaves.filter (fun l =>
          decide (l.employeeId = 1) && decide (l.status = "Approved"))).map
        (fun l => getDaysBetween l.startDate l.endDate)).sum ≤ 20 ∧
    (∀ b, getLeaveBalance (run isoDate State.init scenarioApproved) 1 = some b → 0 ≤ b) ∧
    (∀ e ∈ (run isoDate State.init scenarioApproved).employees,
      ∃ b, getLeaveBalance (run isoDate State.init scenarioApproved) e.id = some b ∧ 0 ≤ b) :=
  allowance_invariant isoDate (run isoDate State.init scenarioApproved)
    ⟨scenarioApproved, rfl⟩ 1

/-- C3 (terminal statuses are immutable). For every state and every request stored
at position `i` of `leaves`: one further operation of any kind (register, apply,
decide with any id and any status, balance) leaves a request at position `i` with the
same id, employeeId, startDate and endDate, whose status is either the same or was
`Pending` and is now `Approved` or `Rejected`; and when the stored status is
`Approved` or `Rejected`, the request is still stored unchanged at position `i` after
every finite sequence of operations. -/
theorem terminal_status_immutable (dp : String → Option Int) (s : State) (i : Nat)
    (l : Leave) (hl : s.leaves[i]? = some l) :
    (∀ r : Request, ∃ l', (step dp s r).2.leaves[i]? = some l' ∧
      l'.id = l.id ∧ l'.employeeId = l.employeeId ∧ l'.startDate = l.startDate ∧
      l'.endDate = l.endDate ∧
      (l'.status = l.status ∨
        (l.status = "Pending" ∧ (l'.status = "Approved" ∨ l'.status = "Rejected")))) ∧
    ((l.status = "Approved" ∨ l.status = "Rejected") →
      ∀ rs : List Request, (run dp s rs).leaves[i]? = some l ∧ l ∈ (run dp s rs).leaves) := by
  constructor
  · intro r
    rcases step_getElem? dp s r i l hl with h | ⟨hp, st, hst, h⟩
    · exact ⟨l, h, rfl, rfl, rfl, rfl, Or.inl rfl⟩
    · exact ⟨_, h, rfl, rfl, rfl, rfl, Or.inr ⟨hp, hst⟩⟩
  · intro ht rs
    have key : (run dp s rs).leaves[i]? = some l := by
      induction rs generalizing s with
      | nil => exact hl
      | cons r rs ih =>
        rw [run_cons]
        apply ih
        rcases step_getElem? dp s r i l hl with h | ⟨hp, _⟩
        · exact h
        · rw [hp] at ht
          rcases ht with ht | ht <;> simp at ht
    exact ⟨key, List.getElem?_mem key⟩

/-- C3 at Ann's approved 15-day request: a later rejection of the same request, an
approval of it and a new application leave it stored as it is. -/
theorem terminal_status_immutable_witness :
    (run isoDate (run isoDate State.init scenarioApproved)
        [.decide (some 1) (.str "Rejected"), .decide (some 1) (.str "Approved"),
         .apply (.num 1) (.str "2024-02-10") (.str "2024-02-11")]).leaves[0]?
      = some { id := 1, employeeId := 1, startDate := 1706745600000,
               endDate := 1707955200000, status := "Approved" } ∧
    ({ id := 1, employeeId := 1, startDate := 1706745600000,
       endDate := 1707955200000, status := "Approved" } : Leave) ∈
      (run isoDate (run isoDate State.init scenarioApproved)
        [.decide (some 1) (.str "Rejected"), .decide (some 1) (.str "Approved"),
         .apply (.num 1) (.str "2024-02-10") (.str "2024-02-11")]).leaves :=
  (terminal_status_immutable isoDate (run isoDate State.init scenarioApproved) 0
      { id := 1, employeeId := 1, startDate := 1706745600000, endDate := 1707955200000,
        status := "Approved" } (by decide)).2 (Or.inl rfl) _

/-- C4 (atomicity on error). For every state and every request (register, apply,
decide, balance) that is answered with an error response, whatever its code and
message, the state after the request equals the state before it: `employees`,
`leaves` with every status, `employeeIdCounter` and `leaveIdCounter` are unchanged. -/
theorem error_leaves_state_unchanged (dp : String → Option Int) (s : State) (r : Request)
    (code : Nat) (msg : String) (h : (step dp s r).1 = .error code msg) :
    (step dp s r).2 = s ∧
    (step dp s r).2.employees = s.employees ∧ (step dp s r).2.leaves = s.leaves ∧
    (step dp s r).2.employeeIdCounter = s.employeeIdCounter ∧
    (step dp s r).2.leaveIdCounter = s.leaveIdCounter := by
  have hs := step_error_state dp s r code msg h
  exact ⟨hs, by rw [hs], by rw [hs], by rw [hs], by rw [hs]⟩

/-- C4 at an application that overlaps Ann's approved request. -/
theorem error_leaves_state_unchanged_witness :
    (step isoDate (run isoDate State.init scenarioApproved)
        (.apply (.num 1) (.str "2024-02-15") (.str "2024-02-20"))).2
      = run isoDate State.init scenarioApproved :=
  (error_leaves_state_unchanged isoDate (run isoDate State.init scenarioApproved)
    (.apply (.num 1) (.str "2024-02-15") (.str "2024-02-20")) 400
    "Leave request overlaps with existing leave." (by decide)).1

/-- C2 as stated fails: Ann has no approved leave, the ranges 2024-02-01..2024-02-15
(15 days) and 2024-03-01..2024-03-10 (10 days) do not overlap each other and start
after her joining date, yet the first application is refused, because her earlier
pending request 2024-02-01..2024-02-05 overlaps it. -/
theorem joint_overcommitment_counterexample :
    (∀ l ∈ (run isoDate State.init scenarioPending).leaves,
      l.employeeId = 1 → l.status ≠ "Approved") ∧
    findEmployee (run isoDate State.init scenarioPending).employees 1
      = some { id := 1, name := .str "Ann", email := .str "ann@example.org",
               department := .str "Engineering", joiningDate := 1704067200000,
               leaveBalance := 20 } ∧
    newDate isoDate (.str "2024-02-01") = some 1706745600000 ∧
    newDate isoDate (.str "2024-02-15") = some 1707955200000 ∧
    newDate isoDate (.str "2024-03-01") = some 1709251200000 ∧
    newDate isoDate (.str "2024-03-10") = some 1710028800000 ∧
    getDaysBetween 1706745600000 1707955200000 = 15 ∧
    getDaysBetween 1709251200000 1710028800000 = 10 ∧
    (applyLeave isoDate (run isoDate State.init scenarioPending)
        (.num 1) (.str "2024-02-01") (.str "2024-02-15")).1
      = .error 400 "Leave request overlaps with existing leave." := by
  decide

/-- C2, amended (joint over-commitment is caught at approval time). In a reachable
state, for a registered employee with no `Approved` request and two supplied, parsed
ranges that do not overlap each other, start on or after the joining date, overlap no
stored non-rejected request of the employee, and whose day counts `a` and `b` satisfy
`a ≤ 20`, `b ≤ 20` and `a + b > 20`: both applications succeed and store `Pending`
requests; approving the first succeeds and returns the balance `20 - a`; approving the
second then fails with the insufficient-balance error and the second request is still
stored as `Pending`. -/
theorem joint_overcommitment (dp : String → Option Int) (s : State) (h : Reachable dp s)
    (e : Employee) (he : e ∈ s.employees)
    (hnone : ∀ l ∈ s.leaves, l.employeeId = e.id → l.status ≠ "Approved")
    (sv1 ev1 sv2 ev2 : JVal) (a1 b1 a2 b2 : Int)
    (hs1 : sv1.truthy = true) (he1 : ev1.truthy = true)
    (hs2 : sv2.truthy = true) (he2 : ev2.truthy = true)
    (hp1 : newDate dp sv1 = some a1) (hq1 : newDate dp ev1 = some b1)
    (hp2 : newDate dp sv2 = some a2) (hq2 : newDate dp ev2 = some b2)
    (hj1 : e.joiningDate ≤ a1) (hj2 : e.joiningDate ≤ a2)
    (hdisj : ¬ (a2 ≤ b1 ∧ b2 ≥ a1))
    (hfree1 : ∀ l ∈ s.leaves, l.employeeId = e.id → l.status ≠ "Rejected" →
      ¬ (a1 ≤ l.endDate ∧ b1 ≥ l.startDate))
    (hfree2 : ∀ l ∈ s.leaves, l.employeeId = e.id → l.status ≠ "Rejected" →
      ¬ (a2 ≤ l.endDate ∧ b2 ≥ l.startDate))
    (hA : getDaysBetween a1 b1 ≤ 20) (hB : getDaysBetween a2 b2 ≤ 20)
    (hAB : getDaysBetween a1 b1 + getDaysBetween a2 b2 > 20) :
    ∃ s1 s2 s3 : State,
      applyLeave dp s (.num e.id) sv1 ev1
        = (.leave { id := s.leaveIdCounter, employeeId := e.id, startDate := a1,
                    endDate := b1, status := "Pending" }, s1) ∧
      applyLeave dp s1 (.num e.id) sv2 ev2
        = (.leave { id := s.leaveIdCounter + 1, employeeId := e.id, startDate := a2,
                    endDate := b2, status := "Pending" }, s2) ∧
      decideLeave s2 (some s.leaveIdCounter) (.str "Approved")
        = (.decision s.leaveIdCounter "Approved" (some (20 - getDaysBetween a1 b1)), s3) ∧
      decideLeave s3 (some (s.leaveIdCounter + 1)) (.str "Approved")
        = (.error 400 "Insufficient leave balance to approve.", s3) ∧
      ({ id := s.leaveIdCounter + 1, employeeId := e.id, startDate := a2, endDate := b2,
         status := "Pending" } : Leave) ∈ s3.leaves := by
  have hinv := reachable_inv h
  have hab1 : a1 ≤ b1 := by
    unfold getDaysBetween at hA hB hAB; rw [msPerDay_eq] at hA hB hAB; omega
  have hab2 : a2 ≤ b2 := by
    unfold getDaysBetween at hA hB hAB; rw [msPerDay_eq] at hA hB hAB; omega
  have hu0 : usedDays s.leaves e.id = 0 := usedDays_eq_zero _ _ hnone
  -- first application
  have hstep1 : applyLeave dp s (.num e.id) sv1 ev1
      = (.leave (pendingLeave s e.id a1 b1), applied s e.id a1 b1) := by
    rw [applyLeave_of_mem dp hinv e he sv1 ev1 a1 b1 hs1 he1 hp1 hq1,
      (isOverlapping_eq_false_iff _ _ _ _).2 hfree1, hu0]
    simp only [ANNUAL_LEAVE_BALANCE]
    rw [if_neg (by omega), if_neg (by omega), if_neg (by simp), if_neg (by omega)]
  have hinv1 : Inv (applied s e.id a1 b1) := inv_applied hinv e a1 b1 he hab1 hj1
  have he1' : e ∈ (applied s e.id a1 b1).employees := he
  -- second application
  have hover2 : isOverlapping (applied s e.id a1 b1).leaves e.id a2 b2 = false := by
    rw [isOverlapping_eq_false_iff]
    intro l hl h1 h2
    simp only [applied, List.mem_append, List.mem_singleton] at hl
    rcases hl with hl | hl
    · exact hfree2 l hl h1 h2
    · subst hl; simpa [pendingLeave] using hdisj
  have hu1 : usedDays (applied s e.id a1 b1).leaves e.id = 0 := by
    simp only [applied]
    rw [usedDays_append_pending _ _ _ rfl, hu0]
  have hstep2 : applyLeave dp (applied s e.id a1 b1) (.num e.id) sv2 ev2
      = (.leave (pendingLeave (applied s e.id a1 b1) e.id a2 b2),
          applied (applied s e.id a1 b1) e.id a2 b2) := by
    rw [applyLeave_of_mem dp hinv1 e he1' sv2 ev2 a2 b2 hs2 he2 hp2 hq2, hover2, hu1]
    simp only [ANNUAL_LEAVE_BALANCE]
    rw [if_neg (by omega), if_neg (by omega), if_neg (by simp), if_neg (by omega)]
  have hinv2 : Inv (applied (applied s e.id a1 b1) e.id a2 b2) :=
    inv_applied hinv1 e a2 b2 he1' hab2 hj2
  have hu2 : usedDays (applied (applied s e.id a1 b1) e.id a2 b2).leaves e.id = 0 := by
    simp only [applied] at hu1 ⊢
    rw [usedDays_append_pending _ _ _ rfl, hu1]
  -- approval of the first request
  have hm1 : pendingLeave s e.id a1 b1 ∈ (applied (applied s e.id a1 b1) e.id a2 b2).leaves := by
    simp [applied]
  have hstep3 := decideLeave_of_mem hinv2 _ hm1 "Approved" (Or.inl rfl)
  simp only [pendingLeave, hu2, ANNUAL_LEAVE_BALANCE] at hstep3
  rw [if_neg (by simp), if_neg (by omega)] at hstep3
  have hf1 : (applied (applied s e.id a1 b1) e.id a2 b2).leaves.find?
      (fun l => decide (l.id = s.leaveIdCounter)) = some (pendingLeave s e.id a1 b1) :=
    find?_id_of_mem _ _ hinv2.leaveNodup hm1
  have hinv3 : Inv (decided (applied (applied s e.id a1 b1) e.id a2 b2) s.leaveIdCounter
      "Approved") :=
    inv_decided hinv2 s.leaveIdCounter "Approved" _ hf1 (Or.inl rfl) rfl (by
      intro _
      rw [getLeaveBalance_of_leave hinv2 _ hm1]
      simp only [pendingLeave, hu2, ANNUAL_LEAVE_BALANCE, exceedsBalance,
        decide_eq_false_iff_not]
      omega)
  -- approval of the second request
  have hm2 : pendingLeave (applied s e.id a1 b1) e.id a2 b2
      ∈ (decided (applied (applied s e.id a1 b1) e.id a2 b2) s.leaveIdCounter
          "Approved").leaves := by
    apply mem_setStatus_of_ne
    · simp [applied]
    · simp [pendingLeave, applied]
  have hu3 : usedDays (decided (applied (applied s e.id a1 b1) e.id a2 b2) s.leaveIdCounter
      "Approved").leaves e.id = getDaysBetween a1 b1 := by
    simp only [decided]
    rw [usedDays_setStatus _ _ _ _ hf1 (by simp [pendingLeave]), hu2]
    simp [pendingLeave]
  have hstep4 := decideLeave_of_mem hinv3 _ hm2 "Approved" (Or.inl rfl)
  simp only [pendingLeave, hu3, ANNUAL_LEAVE_BALANCE] at hstep4
  rw [if_neg (by simp), if_pos ⟨trivial, by omega⟩] at hstep4
  refine ⟨_, _, _, hstep1, hstep2, ?_, ?_, hm2⟩
  · rw [hstep3]; simp
  · exact hstep4
/-- C2, amended, at Ann right after her registration, with the ranges
2024-02-01..2024-02-15 (15 days) and 2024-03-01..2024-03-10 (10 days). -/
theorem joint_overcommitment_witness :
    ∃ s1 s2 s3 : State,
      applyLeave isoDate (run isoDate State.init [registerAnn]) (.num 1)
          (.str "2024-02-01") (.str "2024-02-15")
        = (.leave { id := 1, employeeId := 1, startDate := 1706745600000,
                    endDate := 1707955200000, status := "Pending" }, s1) ∧
      applyLeave isoDate s1 (.num 1) (.str "2024-03-01") (.str "2024-03-10")
        = (.leave { id := 2, employeeId := 1, startDate := 1709251200000,
                    endDate := 1710028800000, status := "Pending" }, s2) ∧
      decideLeave s2 (some 1) (.str "Approved") = (.decision 1 "Approved" (some 5), s3) ∧
      decideLeave s3 (some 2) (.str "Approved")
        = (.error 400 "Insufficient leave balance to approve.", s3) ∧
      ({ id := 2, employeeId := 1, startDate := 1709251200000, endDate := 1710028800000,
         status := "Pending" } : Leave) ∈ s3.leaves :=
  joint_overcommitment isoDate (run isoDate State.init [registerAnn]) ⟨[registerAnn], rfl⟩
    ann (by decide) (by decide)
    (.str "2024-02-01") (.str "2024-02-15") (.str "2024-03-01") (.str "2024-03-10")
    1706745600000 1707955200000 1709251200000 1710028800000
    (by decide) (by decide) (by decide) (by decide)
    (by decide) (by decide) (by decide) (by decide)
    (by decide) (by decide) (by decide) (by decide) (by decide)
    (by decide) (by decide) (by decide)

/-- C5 (order of the checks of apply). For every state and every three request
values, `applyLeave` answers with the first check that fails, in this order:
(1) one of the three values is missing (falsy: absent, `null`, `false`, `0` or the
empty string): 400 "... are required."; (2) no employee has that id: 404;
(3) a date does not parse: 400 "Invalid date format."; (4) `end < start`: 400;
(5) `start < employee.joiningDate`: 400 "Cannot apply leave before joining date.";
(6) a non-rejected request of the employee overlaps: 400 "... overlaps ...";
(7) the day count exceeds the current balance: 400 "... exceed available leave
balance."; and when none fails it stores and returns a new `Pending` request.  The
response is a leave request exactly when all seven checks pass.  Check (5) is
answered without reading `leaves`, so whatever the balance and the stored requests. -/
theorem apply_check_order (dp : String → Option Int) (s : State)
    (employeeId startDate endDate : JVal) :
    ((employeeId.truthy = false ∨ startDate.truthy = false ∨ endDate.truthy = false) →
      applyLeave dp s employeeId startDate endDate
        = (.error 400 "employeeId, startDate and endDate are required.", s)) ∧
    ((employeeId.truthy = true ∧ startDate.truthy = true ∧ endDate.truthy = true) →
      (s.employees.find? (fun e => strictEqNum e.id employeeId) = none →
        applyLeave dp s employeeId startDate endDate
          = (.error 404 "Employee not found.", s)) ∧
      (∀ employee, s.employees.find? (fun e => strictEqNum e.id employeeId) = some employee →
        ((newDate dp startDate = none ∨ newDate dp endDate = none) →
          applyLeave dp s employeeId startDate endDate
            = (.error 400 "Invalid date format.", s)) ∧
        (∀ start endD, newDate dp startDate = some start → newDate dp endDate = some endD →
          (endD < start →
            applyLeave dp s employeeId startDate endDate
              = (.error 400 "endDate cannot be before startDate.", s)) ∧
          (start ≤ endD → start < employee.joiningDate →
            ∀ leaves leaveIdCounter,
              applyLeave dp { s with leaves := leaves, leaveIdCounter := leaveIdCounter }
                  employeeId startDate endDate
                = (.error 400 "Cannot apply leave before joining date.",
                    { s with leaves := leaves, leaveIdCounter := leaveIdCounter })) ∧
          (start ≤ endD → employee.joiningDate ≤ start →
            isOverlapping s.leaves employee.id start endD = true →
            applyLeave dp s employeeId startDate endDate
              = (.error 400 "Leave request overlaps with existing leave.", s)) ∧
          (∃ balance, getLeaveBalance s employee.id = some balance ∧
            (start ≤ endD → employee.joiningDate ≤ start →
              isOverlapping s.leaves employee.id start endD = false →
              getDaysBetween start endD > balance →
              applyLeave dp s employeeId startDate endDate
                = (.error 400 "Leave days exceed available leave balance.", s)) ∧
            (start ≤ endD → employee.joiningDate ≤ start →
              isOverlapping s.leaves employee.id start endD = false →
              getDaysBetween start endD ≤ balance →
              applyLeave dp s employeeId startDate endDate
                = (.leave { id := s.leaveIdCounter, employeeId := employee.id,
                            startDate := start, endDate := endD, status := "Pending" },
                   { s with leaveIdCounter := s.leaveIdCounter + 1,
                            leaves := s.leaves ++
                              [{ id := s.leaveIdCounter, employeeId := employee.id,
                                 startDate := start, endDate := endD,
                                 status := "Pending" }] })))))) ∧
    ((∃ l s', applyLeave dp s employeeId startDate endDate = (.leave l, s')) ↔
      (employeeId.truthy = true ∧ startDate.truthy = true ∧ endDate.truthy = true ∧
        ∃ employee start endD balance,
          s.employees.find? (fun e => strictEqNum e.id employeeId) = some employee ∧
          newDate dp startDate = some start ∧ newDate dp endDate = some endD ∧
          start ≤ endD ∧ employee.joiningDate ≤ start ∧
          isOverlapping s.leaves employee.id start endD = false ∧
          getLeaveBalance s employee.id = some balance ∧
          getDaysBetween start endD ≤ balance)) := by
  refine ⟨applyLeave_missing dp s _ _ _, ?_, ?_⟩
  · rintro ⟨h1, h2, h3⟩
    refine ⟨applyLeave_unknown dp s _ _ _ h1 h2 h3, ?_⟩
    intro employee hf
    refine ⟨applyLeave_invalid dp s _ _ _ employee h1 h2 h3 hf, ?_⟩
    intro start endD hs hd
    have hbal := getLeaveBalance_of_find? s employeeId employee hf
    have heq := applyLeave_eq dp s _ _ _ employee start endD h1 h2 h3 hf hs hd
    refine ⟨?_, ?_, ?_, _, hbal, ?_, ?_⟩
    · intro h4
      rw [heq, if_pos h4]
    · intro h4 h5 leaves leaveIdCounter
      have hq := applyLeave_eq dp
        { s with leaves := leaves, leaveIdCounter := leaveIdCounter } _ _ _ employee start endD
        h1 h2 h3 hf hs hd
      rw [hq, if_neg (by omega), if_pos h5]
    · intro h4 h5 h6
      rw [heq, if_neg (by omega), if_neg (by omega), if_pos h6]
    · intro h4 h5 h6 h7
      rw [heq, if_neg (by omega), if_neg (by omega), h6, hbal]
      simp only [exceedsBalance, Bool.false_eq_true, if_false, decide_eq_true_eq]
      rw [if_pos h7]
    · intro h4 h5 h6 h7
      rw [heq, if_neg (by omega), if_neg (by omega), h6, hbal]
      simp only [exceedsBalance, Bool.false_eq_true, if_false, decide_eq_true_eq]
      rw [if_neg (by omega)]
      rfl
  · constructor
    · rintro ⟨l, s', hl⟩
      rcases applyLeave_cases dp s employeeId startDate endDate with
        ⟨c, m, hm⟩ | ⟨e, a, b, h1, h2, h3, hf, hs, hd, h4, h5, h6, h7, _⟩
      · rw [hm] at hl; simp at hl
      · refine ⟨h1, h2, h3, e, a, b, _, hf, hs, hd, h4, h5, h6,
          getLeaveBalance_of_find? s employeeId e hf, ?_⟩
        rw [getLeaveBalance_of_find? s employeeId e hf] at h7
        simpa [exceedsBalance] using h7
    · rintro ⟨h1, h2, h3, e, a, b, bal, hf, hs, hd, h4, h5, h6, hb, h7⟩
      refine ⟨pendingLeave s e.id a b, applied s e.id a b, ?_⟩
      rw [applyLeave_eq dp s _ _ _ e a b h1 h2 h3 hf hs hd, if_neg (by omega),
        if_neg (by omega), h6, hb]
      simp only [exceedsBalance, Bool.false_eq_true, if_false, decide_eq_true_eq]
      rw [if_neg (by omega)]

/-- C5 at Ann, whose 15 days are used up by an approved request overlapping the
requested range: an application that starts before her joining date is answered with
the joining-date error. -/
theorem apply_check_order_witness :
    applyLeave isoDate (run isoDate State.init scenarioApproved)
        (.num 1) (.str "2023-12-20") (.str "2024-02-20")
      = (.error 400 "Cannot apply leave before joining date.",
          run isoDate State.init scenarioApproved) :=
  ((((apply_check_order isoDate (run isoDate State.init scenarioApproved)
      (.num 1) (.str "2023-12-20") (.str "2024-02-20")).2.1
        ⟨by decide, by decide, by decide⟩).2 ann (by decide)).2
          1703030400000 1708387200000 (by decide) (by decide)).2.1
            (by decide) (by decide) _ _

/-- C6 (order of the checks of decide). In every reachable state `decideLeave` answers
with the first check that fails, in this order: (1) the status value is not exactly
the string `Approved` or `Rejected`: 400 "Status must be ..."; (2) no stored request
has that id: 404; (3) the request found is not `Pending`: 400 "... already
processed."; (4) the target is `Approved` and the day count of the request exceeds
the current balance of its employee: 400 "Insufficient leave balance to approve.";
otherwise the status of the request is set and a decision is returned.  In
particular, for every stored request that is not `Pending` and for both targets, the
answer is the already-processed error, never the insufficient-balance error. -/
theorem decide_check_order (dp : String → Option Int) (s : State) (h : Reachable dp s)
    (leaveId : Option Int) (status : JVal) :
    ((status ≠ .str "Approved" ∧ status ≠ .str "Rejected") →
      decideLeave s leaveId status
        = (.error 400 "Status must be Approved or Rejected.", s)) ∧
    (∀ st, status = .str st → (st = "Approved" ∨ st = "Rejected") →
      (leaveId.bind (fun i => s.leaves.find? (fun l => decide (l.id = i))) = none →
        decideLeave s leaveId status = (.error 404 "Leave request not found.", s)) ∧
      (∀ leave,
        leaveId.bind (fun i => s.leaves.find? (fun l => decide (l.id = i))) = some leave →
        (leave.status ≠ "Pending" →
          decideLeave s leaveId status
            = (.error 400 "Leave request is already processed.", s)) ∧
        (leave.status = "Pending" →
          ∃ balance, getLeaveBalance s leave.employeeId = some balance ∧
            (st = "Approved" →
              getDaysBetween leave.startDate leave.endDate > balance →
              decideLeave s leaveId status
                = (.error 400 "Insufficient leave balance to approve.", s)) ∧
            ((st = "Rejected" ∨ getDaysBetween leave.startDate leave.endDate ≤ balance) →
              ∃ remaining, decideLeave s leaveId status
                = (.decision leave.id st remaining,
                    { s with leaves := setStatus s.leaves leave.id st }))))) ∧
    (∀ r ∈ s.leaves, r.status ≠ "Pending" →
      ∀ st, (st = "Approved" ∨ st = "Rejected") →
        decideLeave s (some r.id) (.str st)
          = (.error 400 "Leave request is already processed.", s)) := by
  have hinv := reachable_inv h
  refine ⟨decideLeave_badStatus s leaveId status, ?_, ?_⟩
  · rintro st rfl hst
    refine ⟨decideLeave_unknown s leaveId st hst, ?_⟩
    intro leave hfind
    cases leaveId with
    | none => simp at hfind
    | some i =>
      simp only [Option.some_bind] at hfind
      have heq := decideLeave_eq s i st leave hst hfind
      have hmem : leave ∈ s.leaves := List.mem_of_find?_eq_some hfind
      have hbal := getLeaveBalance_of_leave hinv leave hmem
      refine ⟨?_, ?_⟩
      · intro hp
        rw [heq, if_pos hp]
      · intro hp
        refine ⟨_, hbal, ?_, ?_⟩
        · intro ha hgt
          rw [heq, if_neg (by simp [hp]), hbal, if_pos ⟨ha, by simpa [exceedsBalance] using hgt⟩]
        · intro hok
          refine ⟨getLeaveBalance (decided s leave.id st) leave.employeeId, ?_⟩
          rw [heq, if_neg (by simp [hp]), hbal, if_neg]
          · rfl
          · rintro ⟨ha, hgt⟩
            simp only [exceedsBalance, decide_eq_true_eq] at hgt
            rcases hok with hr | hle
            · rw [ha] at hr; simp at hr
            · omega
  · intro r hr hp st hst
    rw [decideLeave_of_mem hinv r hr st hst, if_pos hp]

/-- C6 at Ann's approved request, whose 15 days leave a balance of 5: rejecting it
is answered with the already-processed error. -/
theorem decide_check_order_witness :
    decideLeave (run isoDate State.init scenarioApproved) (some 1) (.str "Rejected")
      = (.error 400 "Leave request is already processed.",
          run isoDate State.init scenarioApproved) :=
  (decide_check_order isoDate (run isoDate State.init scenarioApproved)
    ⟨scenarioApproved, rfl⟩ (some 1) (.str "Rejected")).2.2
      { id := 1, employeeId := 1, startDate := 1706745600000, endDate := 1707955200000,
        status := "Approved" } (by decide) (by decide) "Rejected" (Or.inr rfl)

/-- C7 (effect of a decision on the derived balance). In every reachable state, for
every stored `Pending` request `r` of employee `e` with day count `n`, the balance of
`e` is a number `balance`, and: when `n ≤ balance`, `decide(r, Approved)` succeeds and
returns `leaveBalanceRemaining = balance - n`, and the balance query for `e` that
follows returns the same value (when `n > balance` the approval is refused and no
decision is returned); `decide(r, Rejected)` succeeds, returns
`leaveBalanceRemaining = balance`, and leaves the balance of every employee id
unchanged. -/
theorem decision_balance_effect (dp : String → Option Int) (s : State) (h : Reachable dp s)
    (r : Leave) (hr : r ∈ s.leaves) (hp : r.status = "Pending") :
    ∃ balance, getLeaveBalance s r.employeeId = some balance ∧
      (getDaysBetween r.startDate r.endDate ≤ balance →
        ∃ s', decideLeave s (some r.id) (.str "Approved")
            = (.decision r.id "Approved"
                (some (balance - getDaysBetween r.startDate r.endDate)), s') ∧
          balanceOf s' (some r.employeeId)
            = (.balance r.employeeId
                (some (balance - getDaysBetween r.startDate r.endDate)), s')) ∧
      (getDaysBetween r.startDate r.endDate > balance →
        decideLeave s (some r.id) (.str "Approved")
          = (.error 400 "Insufficient leave balance to approve.", s)) ∧
      (∃ s', decideLeave s (some r.id) (.str "Rejected")
            = (.decision r.id "Rejected" (some balance), s') ∧
          balanceOf s' (some r.employeeId) = (.balance r.employeeId (some balance), s') ∧
          ∀ employeeId, getLeaveBalance s' employeeId = getLeaveBalance s employeeId) := by
  have hinv := reachable_inv h
  have hf := find?_id_of_mem s.leaves r hinv.leaveNodup hr
  obtain ⟨_, _, e, he, hid, _⟩ := hinv.leaveOk r hr
  have hbal := getLeaveBalance_of_leave hinv r hr
  have hA := decideLeave_of_mem hinv r hr "Approved" (Or.inl rfl)
  have hR := decideLeave_of_mem hinv r hr "Rejected" (Or.inr rfl)
  rw [if_neg (by simp [hp])] at hA hR
  refine ⟨_, hbal, ?_, ?_, ?_⟩
  · intro hle
    rw [if_neg (by rintro ⟨_, hgt⟩; omega)] at hA
    simp only [if_true] at hA
    refine ⟨_, hA, ?_⟩
    have hinv' : Inv (decided s r.id "Approved") :=
      inv_decided hinv r.id "Approved" r hf (Or.inl rfl) hp (by
        intro _
        rw [hbal]
        simpa [exceedsBalance] using hle)
    have he' : e ∈ (decided s r.id "Approved").employees := he
    have hq := balanceOf_of_mem hinv' e he'
    rw [getLeaveBalance_of_mem hinv' e he', hid] at hq
    rw [hq]
    simp only [decided]
    rw [usedDays_setStatus _ _ _ _ hf (by rw [hp]; decide)]
    simp only [and_self, if_true]
    congr 3
    omega
  · intro hgt
    rw [if_pos ⟨rfl, hgt⟩] at hA
    exact hA
  · rw [if_neg (by rintro ⟨hx, _⟩; simp at hx)] at hR
    have hne : ("Rejected" : String) ≠ "Approved" := by decide
    simp only [hne, if_false, sub_zero] at hR
    have hsame := getLeaveBalance_decided s r.id "Rejected" r hf (by rw [hp]; decide) hne
    refine ⟨_, hR, ?_, hsame⟩
    have hinv' : Inv (decided s r.id "Rejected") :=
      inv_decided hinv r.id "Rejected" r hf (Or.inr rfl) hp (by intro hx; simp at hx)
    have he' : e ∈ (decided s r.id "Rejected").employees := he
    have hq := balanceOf_of_mem hinv' e he'
    rw [hid, hsame, hbal] at hq
    exact hq

/-- C7 at Ann's pending five-day request: approving it returns 15, and so does the
balance query that follows; rejecting it returns 20. -/
theorem decision_balance_effect_witness :
    (∃ s', decideLeave (run isoDate State.init scenarioPending) (some 1) (.str "Approved")
        = (.decision 1 "Approved" (some 15), s') ∧
      balanceOf s' (some 1) = (.balance 1 (some 15), s')) ∧
    (∃ s', decideLeave (run isoDate State.init scenarioPending) (some 1) (.str "Rejected")
        = (.decision 1 "Rejected" (some 20), s') ∧
      balanceOf s' (some 1) = (.balance 1 (some 20), s') ∧
      ∀ employeeId, getLeaveBalance s' employeeId
        = getLeaveBalance (run isoDate State.init scenarioPending) employeeId) := by
  obtain ⟨balance, hb, h1, _, h3⟩ :=
    decision_balance_effect isoDate (run isoDate State.init scenarioPending)
      ⟨scenarioPending, rfl⟩
      { id := 1, employeeId := 1, startDate := 1706745600000, endDate := 1707091200000,
        status := "Pending" } (by decide) rfl
  have h20 : getLeaveBalance (run isoDate State.init scenarioPending) 1 = some 20 := by decide
  have hbe : balance = 20 := Option.some.inj (hb.symm.trans h20)
  subst hbe
  exact ⟨h1 (by decide), h3⟩

/-- C8 (boundary of the balance check of apply). In every reachable state, for a
registered employee, a supplied start value that parses to `start` on or after the
joining date and a supplied end value: if the employee has no `Approved` request and
no stored non-rejected request of the employee overlaps the range, then the
application for exactly 20 days (`end = start + 19` days) succeeds with a `Pending`
request, and the application for 21 days (`end = start + 20` days) fails with the
insufficient-balance error.  More generally, when the end value parses to
`end ≥ start` and nothing overlaps (checks 1-6 pass), the application succeeds if and
only if `getDaysBetween(start, end) ≤ getLeaveBalance(employeeId)`. -/
theorem apply_balance_boundary (dp : String → Option Int) (s : State) (h : Reachable dp s)
    (e : Employee) (he : e ∈ s.employees) (startDate endDate : JVal) (start : Int)
    (h2 : startDate.truthy = true) (h3 : endDate.truthy = true)
    (hs : newDate dp startDate = some start) (hj : e.joiningDate ≤ start) :
    ((∀ l ∈ s.leaves, l.employeeId = e.id → l.status ≠ "Approved") →
      newDate dp endDate = some (start + 19 * msPerDay) →
      (∀ l ∈ s.leaves, l.employeeId = e.id → l.status ≠ "Rejected" →
        ¬ (start ≤ l.endDate ∧ start + 19 * msPerDay ≥ l.startDate)) →
      applyLeave dp s (.num e.id) startDate endDate
        = (.leave { id := s.leaveIdCounter, employeeId := e.id, startDate := start,
                    endDate := start + 19 * msPerDay, status := "Pending" },
           { s with leaveIdCounter := s.leaveIdCounter + 1,
                    leaves := s.leaves ++
                      [{ id := s.leaveIdCounter, employeeId := e.id, startDate := start,
                         endDate := start + 19 * msPerDay, status := "Pending" }] })) ∧
    ((∀ l ∈ s.leaves, l.employeeId = e.id → l.status ≠ "Approved") →
      newDate dp endDate = some (start + 20 * msPerDay) →
      (∀ l ∈ s.leaves, l.employeeId = e.id → l.status ≠ "Rejected" →
        ¬ (start ≤ l.endDate ∧ start + 20 * msPerDay ≥ l.startDate)) →
      applyLeave dp s (.num e.id) startDate endDate
        = (.error 400 "Leave days exceed available leave balance.", s)) ∧
    (∀ endD, newDate dp endDate = some endD → start ≤ endD →
      (∀ l ∈ s.leaves, l.employeeId = e.id → l.status ≠ "Rejected" →
        ¬ (start ≤ l.endDate ∧ endD ≥ l.startDate)) →
      ∃ balance, getLeaveBalance s e.id = some balance ∧
        ((∃ l s', applyLeave dp s (.num e.id) startDate endDate = (.leave l, s')) ↔
          getDaysBetween start endD ≤ balance)) := by
  have hinv := reachable_inv h
  refine ⟨?_, ?_, ?_⟩
  · intro hnone hd hfree
    rw [applyLeave_of_mem dp hinv e he _ _ start _ h2 h3 hs hd,
      (isOverlapping_eq_false_iff _ _ _ _).2 hfree, usedDays_eq_zero _ _ hnone]
    simp only [ANNUAL_LEAVE_BALANCE, getDaysBetween, msPerDay_eq]
    rw [if_neg (by omega), if_neg (by omega), if_neg (by simp), if_neg (by omega)]
    simp [pendingLeave, applied, msPerDay_eq]
  · intro hnone hd hfree
    rw [applyLeave_of_mem dp hinv e he _ _ start _ h2 h3 hs hd,
      (isOverlapping_eq_false_iff _ _ _ _).2 hfree, usedDays_eq_zero _ _ hnone]
    simp only [ANNUAL_LEAVE_BALANCE, getDaysBetween, msPerDay_eq]
    rw [if_neg (by omega), if_neg (by omega), if_neg (by simp), if_pos (by omega)]
  · intro endD hd hle hfree
    refine ⟨_, getLeaveBalance_of_mem hinv e he, ?_⟩
    rw [applyLeave_of_mem dp hinv e he _ _ start endD h2 h3 hs hd,
      (isOverlapping_eq_false_iff _ _ _ _).2 hfree]
    rw [if_neg (by omega), if_neg (by omega), if_neg (by simp)]
    by_cases hx : getDaysBetween start endD > ANNUAL_LEAVE_BALANCE - usedDays s.leaves e.id
    · rw [if_pos hx]
      constructor
      · rintro ⟨l, s', hl⟩; simp at hl
      · intro hc; omega
    · rw [if_neg hx]
      exact ⟨fun _ => by omega, fun _ => ⟨_, _, rfl⟩⟩

/-- C8 at Ann right after her registration: 2024-02-01..2024-02-20 (20 days) is
accepted and 2024-02-01..2024-02-21 (21 days) is refused for insufficient balance. -/
theorem apply_balance_boundary_witness :
    applyLeave isoDate (run isoDate State.init [registerAnn]) (.num 1)
        (.str "2024-02-01") (.str "2024-02-20")
      = (.leave { id := 1, employeeId := 1, startDate := 1706745600000,
                  endDate := 1708387200000, status := "Pending" },
         { employees := [ann], employeeIdCounter := 2,
           leaves := [{ id := 1, employeeId := 1, startDate := 1706745600000,
                        endDate := 1708387200000, status := "Pending" }],
           leaveIdCounter := 2 }) ∧
    applyLeave isoDate (run isoDate State.init [registerAnn]) (.num 1)
        (.str "2024-02-01") (.str "2024-02-21")
      = (.error 400 "Leave days exceed available leave balance.",
          run isoDate State.init [registerAnn]) :=
  ⟨(apply_balance_boundary isoDate (run isoDate State.init [registerAnn])
      ⟨[registerAnn], rfl⟩ ann (by decide) (.str "2024-02-01") (.str "2024-02-20")
      1706745600000 (by decide) (by decide) (by decide) (by decide)).1
        (by decide) (by decide) (by decide),
   (apply_balance_boundary isoDate (run isoDate State.init [registerAnn])
      ⟨[registerAnn], rfl⟩ ann (by decide) (.str "2024-02-01") (.str "2024-02-21")
      1706745600000 (by decide) (by decide) (by decide) (by decide)).2.1
        (by decide) (by decide) (by decide)⟩
/-- C9 (overlap is rejected). In every reachable state, for a registered employee
`e` and a supplied, parsed range `[start, end]` with `end ≥ start` and
`start ≥ e.joiningDate`: if some stored request of `e` with status `Pending` or
`Approved` satisfies `start ≤ other.endDate` and `end ≥ other.startDate`, then the
application is answered with the overlap error, whatever the balance, and the state
is unchanged, so no request is stored. -/
theorem overlap_rejected (dp : String → Option Int) (s : State) (h : Reachable dp s)
    (e : Employee) (he : e ∈ s.employees) (startDate endDate : JVal) (start endD : Int)
    (h2 : startDate.truthy = true) (h3 : endDate.truthy = true)
    (hs : newDate dp startDate = some start) (hd : newDate dp endDate = some endD)
    (hle : start ≤ endD) (hj : e.joiningDate ≤ start)
    (other : Leave) (ho : other ∈ s.leaves) (hoe : other.employeeId = e.id)
    (hos : other.status = "Pending" ∨ other.status = "Approved")
    (hov : start ≤ other.endDate ∧ endD ≥ other.startDate) :
    applyLeave dp s (.num e.id) startDate endDate
      = (.error 400 "Leave request overlaps with existing leave.", s) := by
  have hinv := reachable_inv h
  have hne : other.status ≠ "Rejected" := by
    rcases hos with hx | hx <;> rw [hx] <;> decide
  have hover : isOverlapping s.leaves e.id start endD = true :=
    (isOverlapping_eq_true_iff _ _ _ _).2 ⟨other, ho, hoe, hne, hov.1, hov.2⟩
  rw [applyLeave_of_mem dp hinv e he _ _ start endD h2 h3 hs hd,
    if_neg (by omega), if_neg (by omega), if_pos hover]

/-- C9 at Ann with 15 approved days: a 30-day range that contains the approved
request is answered with the overlap error, not with the balance error. -/
theorem overlap_rejected_witness :
    applyLeave isoDate (run isoDate State.init scenarioApproved) (.num 1)
        (.str "2024-02-10") (.str "2024-03-10")
      = (.error 400 "Leave request overlaps with existing leave.",
          run isoDate State.init scenarioApproved) :=
  overlap_rejected isoDate (run isoDate State.init scenarioApproved)
    ⟨scenarioApproved, rfl⟩ ann (by decide) (.str "2024-02-10") (.str "2024-03-10")
    1707523200000 1710028800000 (by decide) (by decide) (by decide) (by decide)
    (by decide) (by decide)
    { id := 1, employeeId := 1, startDate := 1706745600000, endDate := 1707955200000,
      status := "Approved" } (by decide) (by decide) (by decide) (by decide)

/-- C10 (rejected requests do not block dates). In every reachable state that
stores a `Rejected` request `r` of employee `e`, an application for `e` whose
supplied values parse to exactly `r.startDate` and `r.endDate` is accepted and a new
`Pending` request is stored, provided no `Pending` or `Approved` request of `e`
intersects that range and its day count does not exceed the current balance of `e`.
Moreover `isOverlapping` reads only the requests of the employee asked about:
requests of other employees, whatever their status, never produce an overlap. -/
theorem rejected_does_not_block (dp : String → Option Int) (s : State)
    (h : Reachable dp s) (r : Leave) (hr : r ∈ s.leaves) (hrej : r.status = "Rejected")
    (startDate endDate : JVal)
    (h2 : startDate.truthy = true) (h3 : endDate.truthy = true)
    (hs : newDate dp startDate = some r.startDate)
    (hd : newDate dp endDate = some r.endDate)
    (hfree : ∀ l ∈ s.leaves, l.employeeId = r.employeeId →
      (l.status = "Pending" ∨ l.status = "Approved") →
      ¬ (r.startDate ≤ l.endDate ∧ r.endDate ≥ l.startDate))
    (balance : Int) (hb : getLeaveBalance s r.employeeId = some balance)
    (hle : getDaysBetween r.startDate r.endDate ≤ balance) :
    applyLeave dp s (.num r.employeeId) startDate endDate
      = (.leave { id := s.leaveIdCounter, employeeId := r.employeeId,
                  startDate := r.startDate, endDate := r.endDate, status := "Pending" },
         { s with leaveIdCounter := s.leaveIdCounter + 1,
                  leaves := s.leaves ++
                    [{ id := s.leaveIdCounter, employeeId := r.employeeId,
                       startDate := r.startDate, endDate := r.endDate,
                       status := "Pending" }] }) ∧
    (∀ (leaves : List Leave) (employeeId a b : Int),
      isOverlapping leaves employeeId a b
        = isOverlapping (leaves.filter (fun l => decide (l.employeeId = employeeId)))
            employeeId a b) := by
  have hinv := reachable_inv h
  have _hr := hrej
  refine ⟨?_, isOverlapping_filter⟩
  obtain ⟨hse, _, e, he, hid, hjoin⟩ := hinv.leaveOk r hr
  have hover : isOverlapping s.leaves e.id r.startDate r.endDate = false := by
    rw [isOverlapping_eq_false_iff]
    intro l hl h1 h2
    obtain ⟨_, hst, _⟩ := hinv.leaveOk l hl
    apply hfree l hl (h1.trans hid)
    rcases hst with hx | hx | hx
    · exact Or.inl hx
    · exact Or.inr hx
    · exact absurd hx h2
  have hbal := getLeaveBalance_of_leave hinv r hr
  rw [hb] at hbal
  have hbal2 : balance = ANNUAL_LEAVE_BALANCE - usedDays s.leaves r.employeeId :=
    Option.some.inj hbal
  rw [← hid] at hbal2 ⊢
  rw [applyLeave_of_mem dp hinv e he _ _ r.startDate r.endDate h2 h3 hs hd,
    if_neg (by omega), if_neg (by omega), hover, if_neg (by simp), if_neg (by omega)]
  rfl

/-- C10 at Ann's rejected five-day request: the same dates are accepted again. -/
theorem rejected_does_not_block_witness :
    applyLeave isoDate (run isoDate State.init scenarioRejected) (.num 1)
        (.str "2024-02-01") (.str "2024-02-05")
      = (.leave { id := 2, employeeId := 1, startDate := 1706745600000,
                  endDate := 1707091200000, status := "Pending" },
         { employees := [ann], employeeIdCounter := 2,
           leaves := [{ id := 1, employeeId := 1, startDate := 1706745600000,
                        endDate := 1707091200000, status := "Rejected" },
                      { id := 2, employeeId := 1, startDate := 1706745600000,
                        endDate := 1707091200000, status := "Pending" }],
           leaveIdCounter := 3 }) :=
  (rejected_does_not_block isoDate (run isoDate State.init scenarioRejected)
    ⟨scenarioRejected, rfl⟩
    { id := 1, employeeId := 1, startDate := 1706745600000, endDate := 1707091200000,
      status := "Rejected" } (by decide) rfl (.str "2024-02-01") (.str "2024-02-05")
    (by decide) (by decide) (by decide) (by decide) (by decide) 20 (by decide)
    (by decide)).1

/-- C11 as stated fails at the id 0: with Ann registered, an application that
supplies `employeeId = 0` (the id of no employee) and two parsing date strings is
answered with 400 "... are required.", not with 404, because `!employeeId` holds for
`0`; the balance query for the same id is answered with 404. -/
theorem unknown_employee_counterexample :
    findEmployee (run isoDate State.init [registerAnn]).employees 0 = none ∧
    applyLeave isoDate (run isoDate State.init [registerAnn])
        (.num 0) (.str "2024-02-01") (.str "2024-02-05")
      = (.error 400 "employeeId, startDate and endDate are required.",
          run isoDate State.init [registerAnn]) ∧
    balanceOf (run isoDate State.init [registerAnn]) (some 0)
      = (.error 404 "Employee not found.", run isoDate State.init [registerAnn]) := by
  decide

/-- C11, amended (unknown employee yields 404). For every state and every
application whose `employeeId` is a non-zero integer, negative values included, that
is the id of no registered employee, and whose two date values are supplied
(non-empty strings, or other truthy values): the answer is 404 "Employee not
found." and the state is unchanged, whatever the two date values are, also when
they do not parse. -/
theorem unknown_employee_not_found (dp : String → Option Int) (s : State) (n : Int)
    (hn : n ≠ 0) (hno : ∀ e ∈ s.employees, e.id ≠ n) (startDate endDate : JVal)
    (h2 : startDate.truthy = true) (h3 : endDate.truthy = true) :
    applyLeave dp s (.num n) startDate endDate = (.error 404 "Employee not found.", s) := by
  apply applyLeave_unknown dp s _ _ _ (by simpa [JVal.truthy] using hn) h2 h3
  rw [List.find?_eq_none]
  intro e he
  simpa [strictEqNum] using hno e he

/-- C11, amended, at the id -3 with two date strings that do not parse. -/
theorem unknown_employee_not_found_witness :
    applyLeave isoDate (run isoDate State.init [registerAnn])
        (.num (-3)) (.str "tomorrow") (.str "next week")
      = (.error 404 "Employee not found.", run isoDate State.init [registerAnn]) :=
  unknown_employee_not_found isoDate (run isoDate State.init [registerAnn]) (-3)
    (by decide) (by decide) (.str "tomorrow") (.str "next week") (by decide) (by decide)

/-- C16 (inclusive day count on whole days). For every time value `d` and every
integer `k ≥ 0`, `getDaysBetween(d, d + k days) = k + 1`, a day being 86,400,000 ms;
in particular `getDaysBetween(d, d) = 1` and `getDaysBetween(d, d + 6 days) = 7`. -/
theorem day_count_whole_days (d : Int) (k : Nat) :
    msPerDay = 86400000 ∧
    getDaysBetween d (d + (k : Int) * msPerDay) = (k : Int) + 1 ∧
    getDaysBetween d d = 1 ∧
    getDaysBetween d (d + 6 * msPerDay) = 7 := by
  refine ⟨msPerDay_eq, ?_, ?_, ?_⟩ <;>
    simp only [getDaysBetween, msPerDay_eq] <;> omega

/-- C16 at 2024-02-01 and `k = 19`: the twenty days 2024-02-01..2024-02-20. -/
theorem day_count_whole_days_witness :
    getDaysBetween 1706745600000 1708387200000 = 20 :=
  (day_count_whole_days 1706745600000 19).2.1

/-- C18 (`isOverlapping` is closed-interval intersection). For every list of requests
with `startDate ≤ endDate` and every range with `start ≤ end`,
`isOverlapping(employeeId, start, end)` is true exactly when some request `r` of that
employee with status other than `Rejected` and some instant `t` satisfy
`start ≤ t ≤ end` and `r.startDate ≤ t ≤ r.endDate`.  Ranges that only touch
(`start = r.endDate` or `end = r.startDate`) overlap, and the test is symmetric in
the two ranges. -/
theorem overlap_is_interval_intersection (leaves : List Leave) (employeeId start endD : Int)
    (hwf : ∀ r ∈ leaves, r.startDate ≤ r.endDate) (hse : start ≤ endD) :
    (isOverlapping leaves employeeId start endD = true ↔
      ∃ r ∈ leaves, r.employeeId = employeeId ∧ r.status ≠ "Rejected" ∧
        ∃ t : Int, start ≤ t ∧ t ≤ endD ∧ r.startDate ≤ t ∧ t ≤ r.endDate) ∧
    (∀ r ∈ leaves, r.employeeId = employeeId → r.status ≠ "Rejected" →
      (start = r.endDate ∨ endD = r.startDate) →
      isOverlapping leaves employeeId start endD = true) ∧
    (∀ (i j : Int) (st : String) (a b c d : Int),
      isOverlapping [{ id := i, employeeId := employeeId, startDate := c, endDate := d,
                       status := st }] employeeId a b
        = isOverlapping [{ id := j, employeeId := employeeId, startDate := a, endDate := b,
                           status := st }] employeeId c d) := by
  refine ⟨?_, ?_, ?_⟩
  · rw [isOverlapping_eq_true_iff]
    constructor
    · rintro ⟨r, hr, h1, h2, h3, h4⟩
      have := hwf r hr
      by_cases hc : start ≤ r.startDate
      · exact ⟨r, hr, h1, h2, r.startDate, hc, h4, le_refl _, this⟩
      · exact ⟨r, hr, h1, h2, start, le_refl _, hse, by omega, h3⟩
    · rintro ⟨r, hr, h1, h2, t, h3, h4, h5, h6⟩
      exact ⟨r, hr, h1, h2, by omega, by omega⟩
  · intro r hr h1 h2 h3
    have := hwf r hr
    rw [isOverlapping_eq_true_iff]
    exact ⟨r, hr, h1, h2, by omega, by omega⟩
  · intro i j st a b c d
    simp only [isOverlapping, List.any_cons, List.any_nil, Bool.or_false, decide_True,
      Bool.true_and, ge_iff_le]
    by_cases h1 : a ≤ d <;> by_cases h2 : c ≤ b <;> simp [h1, h2]

/-- C18 at Ann's approved request 2024-02-01..2024-02-15 and the range
2024-02-15..2024-02-20, which touches it in its last day. -/
theorem overlap_is_interval_intersection_witness :
    isOverlapping (run isoDate State.init scenarioApproved).leaves 1
      1707955200000 1708387200000 = true :=
  (overlap_is_interval_intersection (run isoDate State.init scenarioApproved).leaves 1
      1707955200000 1708387200000 (by decide) (by decide)).2.1
    { id := 1, employeeId := 1, startDate := 1706745600000, endDate := 1707955200000,
      status := "Approved" } (by decide) (by decide) (by decide) (Or.inl rfl)

/-- C12 (stored-request invariant). In every reachable state, every stored leave
request has `endDate ≥ startDate`; its `employeeId` is the id of exactly one
registered employee, and its `startDate` is on or after the joining date of that
employee; hence `getDaysBetween` of the request is at least 1 and `getLeaveBalance`
of its `employeeId` is a number, never `null`. -/
theorem stored_request_invariant (dp : String → Option Int) (s : State)
    (h : Reachable dp s) (l : Leave) (hl : l ∈ s.leaves) :
    l.startDate ≤ l.endDate ∧
    (∃ e ∈ s.employees, e.id = l.employeeId ∧ e.joiningDate ≤ l.startDate ∧
      ∀ e' ∈ s.employees, e'.id = l.employeeId → e' = e) ∧
    s.employees.countP (fun e => decide (e.id = l.employeeId)) = 1 ∧
    1 ≤ getDaysBetween l.startDate l.endDate ∧
    (∃ balance, getLeaveBalance s l.employeeId = some balance) := by
  have hinv := reachable_inv h
  obtain ⟨hse, _, e, he, hid, hj⟩ := hinv.leaveOk l hl
  refine ⟨hse, ⟨e, he, hid, hj, ?_⟩, ?_, getDaysBetween_pos _ _ hse,
    ⟨_, getLeaveBalance_of_leave hinv l hl⟩⟩
  · intro e' he' hid'
    exact List.inj_on_of_nodup_map hinv.empNodup he' he (hid'.trans hid.symm)
  · rw [← hid]
    exact countP_id_of_mem _ hinv.empNodup e he

/-- C12 at Ann's approved request of 15 days. -/
theorem stored_request_invariant_witness :
    (1706745600000 : Int) ≤ 1707955200000 ∧
    (∃ e ∈ (run isoDate State.init scenarioApproved).employees,
      e.id = 1 ∧ e.joiningDate ≤ 1706745600000 ∧
      ∀ e' ∈ (run isoDate State.init scenarioApproved).employees, e'.id = 1 → e' = e) ∧
    (run isoDate State.init scenarioApproved).employees.countP
      (fun e => decide (e.id = 1)) = 1 ∧
    1 ≤ getDaysBetween 1706745600000 1707955200000 ∧
    (∃ balance, getLeaveBalance (run isoDate State.init scenarioApproved) 1 = some balance) :=
  stored_request_invariant isoDate (run isoDate State.init scenarioApproved)
    ⟨scenarioApproved, rfl⟩
    { id := 1, employeeId := 1, startDate := 1706745600000, endDate := 1707955200000,
      status := "Approved" } (by decide)

/-- C13 (postcondition of a successful apply). Whenever `applyLeave` answers with a
leave request, that request has status `Pending`, the `employeeId` of the call, the
parsed `startDate` and `endDate`, and the id `leaveIdCounter` of the state before;
afterwards `leaves` is the previous list with this request appended, `leaveIdCounter`
is one larger, and `employees` and `employeeIdCounter` are unchanged.  Consequently,
in every reachable state, the request at position `i` of `leaves` (creation order)
has id `i + 1` and `leaveIdCounter` is the number of stored requests plus one,
whatever the employees are: ids are strictly increasing and pairwise distinct. -/
theorem apply_postcondition (dp : String → Option Int) :
    (∀ (s : State) (employeeId startDate endDate : JVal) (l : Leave) (s' : State),
      applyLeave dp s employeeId startDate endDate = (.leave l, s') →
      l.status = "Pending" ∧ employeeId = .num l.employeeId ∧
      newDate dp startDate = some l.startDate ∧ newDate dp endDate = some l.endDate ∧
      l.id = s.leaveIdCounter ∧
      s'.leaves = s.leaves ++ [l] ∧ s'.leaveIdCounter = s.leaveIdCounter + 1 ∧
      s'.employees = s.employees ∧ s'.employeeIdCounter = s.employeeIdCounter) ∧
    (∀ s : State, Reachable dp s →
      s.leaveIdCounter = (s.leaves.length : Int) + 1 ∧
      (∀ (i : Nat) (l : Leave), s.leaves[i]? = some l → l.id = (i : Int) + 1) ∧
      s.leaves.Pairwise (fun a b => a.id < b.id) ∧
      (s.leaves.map (fun l => l.id)).Nodup) := by
  constructor
  · intro s employeeId startDate endDate l s' hap
    rcases applyLeave_cases dp s employeeId startDate endDate with
      ⟨c, m, hm⟩ | ⟨e, a, b, _, _, _, hf, hs, hd, _, _, _, _, hj⟩
    · rw [hm] at hap; simp at hap
    · rw [hj] at hap
      simp only [Prod.mk.injEq, Response.leave.injEq] at hap
      obtain ⟨rfl, rfl⟩ := hap
      exact ⟨rfl, (find?_strictEqNum _ _ _ hf).2, hs, hd, rfl, rfl, rfl, rfl, rfl⟩
  · intro s hs
    have h2 := reachable_storeInv hs
    exact ⟨h2.leaveCount, h2.leavePos, pairwise_of_position _ _ h2.leavePos,
      (reachable_inv hs).leaveNodup⟩

/-- C13 at Ann's second application, made after her first request was rejected. -/
theorem apply_postcondition_witness :
    (2 : Int) = (run isoDate State.init scenarioRejected).leaveIdCounter ∧
    (run isoDate State.init (scenarioRejected ++
        [.apply (.num 1) (.str "2024-02-01") (.str "2024-02-05")])).leaves
      = (run isoDate State.init scenarioRejected).leaves ++
        [{ id := 2, employeeId := 1, startDate := 1706745600000, endDate := 1707091200000,
           status := "Pending" }] :=
  have h := (apply_postcondition isoDate).1 (run isoDate State.init scenarioRejected)
    (.num 1) (.str "2024-02-01") (.str "2024-02-05")
    { id := 2, employeeId := 1, startDate := 1706745600000, endDate := 1707091200000,
      status := "Pending" }
    (run isoDate State.init (scenarioRejected ++
      [.apply (.num 1) (.str "2024-02-01") (.str "2024-02-05")])) (by decide)
  ⟨h.2.2.2.2.1, h.2.2.2.2.2.1⟩

/-- C14 (employee ids). For every sequence of requests served from the empty store,
the ids returned by the successful registrations are, in call order, `1, 2, ..., k`:
the `k`-th successful registration returns `k`.  In every reachable state the
employee at position `i` of `employees` has id `i + 1`, so the stored ids are
strictly increasing and pairwise distinct, and `employeeIdCounter` is the number of
employees plus one.  A request that does not answer with a new employee (a failed
registration, or any apply, decide or balance request) leaves `employees` and
`employeeIdCounter` unchanged, and apply, decide and balance requests never answer
with an employee. -/
theorem employee_ids (dp : String → Option Int) :
    (∀ rs : List Request,
      registeredIds dp State.init rs
        = (List.range (registeredIds dp State.init rs).length).map
            (fun k : Nat => (k : Int) + 1)) ∧
    (∀ s : State, Reachable dp s →
      s.employeeIdCounter = (s.employees.length : Int) + 1 ∧
      (∀ (i : Nat) (e : Employee), s.employees[i]? = some e → e.id = (i : Int) + 1) ∧
      s.employees.Pairwise (fun a b => a.id < b.id) ∧
      (s.employees.map (fun e => e.id)).Nodup) ∧
    (∀ (s : State) (r : Request), (∀ e, (step dp s r).1 ≠ .employee e) →
      (step dp s r).2.employees = s.employees ∧
      (step dp s r).2.employeeIdCounter = s.employeeIdCounter) ∧
    (∀ (s : State) (e : Employee),
      (∀ employeeId startDate endDate,
        (step dp s (.apply employeeId startDate endDate)).1 ≠ .employee e) ∧
      (∀ leaveId status, (step dp s (.decide leaveId status)).1 ≠ .employee e) ∧
      (∀ employeeId, (step dp s (.balance employeeId)).1 ≠ .employee e)) := by
  refine ⟨?_, ?_, ?_, ?_⟩
  · intro rs
    rw [registeredIds_from dp rs State.init]
    simp only [List.length_map, List.length_range]
    apply List.map_congr_left
    intro k _
    simp only [State.init]
    omega
  · intro s hs
    have h2 := reachable_storeInv hs
    exact ⟨h2.empCount, h2.empPos, pairwise_of_position _ _ h2.empPos,
      (reachable_inv hs).empNodup⟩
  · intro s r hne
    rcases step_register_cases dp s r with ⟨e, h1, _⟩ | ⟨_, h2, h3⟩
    · exact absurd h1 (hne e)
    · exact ⟨h3, h2⟩
  · intro s e
    refine ⟨?_, ?_, ?_⟩
    · intro employeeId startDate endDate
      rcases applyLeave_cases dp s employeeId startDate endDate with
        ⟨c, m, hm⟩ | ⟨_, _, _, _, _, _, _, _, _, _, _, _, _, hj⟩
      · simp [step, hm]
      · simp [step, hj]
    · intro leaveId status
      rcases decideLeave_cases s leaveId status with
        ⟨c, m, hm⟩ | ⟨_, _, _, _, _, _, _, _, _, _, hj⟩
      · simp [step, hm]
      · simp [step, hj]
    · intro employeeId
      simp only [step, balanceOf]
      split <;> simp

/-- C14 at a run with a failed registration (duplicate email), a leave application
and two successful registrations: the ids returned are 1 and 2. -/
theorem employee_ids_witness :
    registeredIds isoDate State.init
        [registerAnn, registerAnn,
         .apply (.num 1) (.str "2024-02-01") (.str "2024-02-05"),
         .register (.str "Bob") (.str "bob@example.org") (.str "Sales") (.str "2024-01-15")]
      = [1, 2] :=
  ((employee_ids isoDate).1 _).trans (by decide)

/-- C15 (email uniqueness). In every reachable state, a registration with four
supplied (truthy) fields whose email is strictly equal to the email of a registered
employee is answered with 400 "Email already exists.", also when `joiningDate` does
not parse, and the state, hence `employees` and the earlier record, is unchanged;
and the emails of the stored employees are pairwise distinct. -/
theorem email_uniqueness (dp : String → Option Int) (s : State) (h : Reachable dp s) :
    (∀ (name email department joiningDate : JVal),
      name.truthy = true → email.truthy = true → department.truthy = true →
      joiningDate.truthy = true → (∃ e ∈ s.employees, e.email = email) →
      register dp s name email department joiningDate
        = (.error 400 "Email already exists.", s)) ∧
    (s.employees.map (fun e => e.email)).Nodup ∧
    (∀ (i j : Nat) (a b : Employee), i ≠ j → s.employees[i]? = some a →
      s.employees[j]? = some b → a.email ≠ b.email) := by
  have h2 := reachable_storeInv h
  refine ⟨?_, h2.emails, ?_⟩
  · rintro name email department joiningDate h1 h2 h3 h4 ⟨e, he, hee⟩
    unfold register
    have hany : s.employees.any (fun e => decide (e.email = email)) = true := by
      rw [List.any_eq_true]
      exact ⟨e, he, by simpa using hee⟩
    simp only [h1, h2, h3, h4, hany, Bool.not_true, Bool.or_self, Bool.false_eq_true,
      if_false, if_true]
  · intro i j a b hij ha hb
    exact ne_of_nodup_map s.employees (fun e => e.email) h2.emails i j a b hij ha hb

/-- C15 at Ann's email, with a different name and a joining date that does not
parse. -/
theorem email_uniqueness_witness :
    register isoDate (run isoDate State.init [registerAnn])
        (.str "Anna") (.str "ann@example.org") (.str "Sales") (.str "not a date")
      = (.error 400 "Email already exists.", run isoDate State.init [registerAnn]) :=
  (email_uniqueness isoDate (run isoDate State.init [registerAnn])
      ⟨[registerAnn], rfl⟩).1
    (.str "Anna") (.str "ann@example.org") (.str "Sales") (.str "not a date")
    (by decide) (by decide) (by decide) (by decide) ⟨ann, by decide, by decide⟩

/-- C20 (non-overlap invariant). In every state reachable from the empty store, any
two distinct stored requests of the same employee whose statuses are both other than
`Rejected` (`Pending` or `Approved`) have disjoint ranges: not
(`a.startDate ≤ b.endDate` and `b.startDate ≤ a.endDate`).  Distinct means stored at
different positions of `leaves`; since ids are distinct, this is the same as being
different requests. -/
theorem non_overlap_invariant (dp : String → Option Int) (s : State) (h : Reachable dp s) :
    (∀ (i j : Nat) (a b : Leave), i ≠ j → s.leaves[i]? = some a → s.leaves[j]? = some b →
      a.employeeId = b.employeeId → a.status ≠ "Rejected" → b.status ≠ "Rejected" →
      ¬ (a.startDate ≤ b.endDate ∧ b.startDate ≤ a.endDate)) ∧
    (∀ a ∈ s.leaves, ∀ b ∈ s.leaves, a ≠ b →
      a.employeeId = b.employeeId →
      (a.status = "Pending" ∨ a.status = "Approved") →
      (b.status = "Pending" ∨ b.status = "Approved") →
      ¬ (a.startDate ≤ b.endDate ∧ b.startDate ≤ a.endDate)) := by
  have h2 := reachable_storeInv h
  have key : ∀ (i j : Nat) (a b : Leave), i ≠ j → s.leaves[i]? = some a →
      s.leaves[j]? = some b → a.employeeId = b.employeeId → a.status ≠ "Rejected" →
      b.status ≠ "Rejected" → ¬ (a.startDate ≤ b.endDate ∧ b.startDate ≤ a.endDate) := by
    intro i j a b hij ha hb he hsa hsb hc
    exact h2.disjoint i j a b hij ha hb ⟨he, hsa, hsb, hc.1, hc.2⟩
  refine ⟨key, ?_⟩
  intro a ha b hb hab he hsa hsb
  obtain ⟨i, hi⟩ := List.mem_iff_getElem?.1 ha
  obtain ⟨j, hj⟩ := List.mem_iff_getElem?.1 hb
  have hij : i ≠ j := by
    rintro rfl
    rw [hi] at hj
    exact hab (Option.some.inj hj)
  apply key i j a b hij hi hj he
  · rcases hsa with hx | hx <;> rw [hx] <;> decide
  · rcases hsb with hx | hx <;> rw [hx] <;> decide

/-- C20 at Ann's approved request 2024-02-01..2024-02-15 and her pending request
2024-03-01..2024-03-10. -/
theorem non_overlap_invariant_witness :
    ¬ ((1706745600000 : Int) ≤ 1710028800000 ∧ (1709251200000 : Int) ≤ 1707955200000) :=
  (non_overlap_invariant isoDate (run isoDate State.init scenarioApproved)
      ⟨scenarioApproved, rfl⟩).1 0 1
    { id := 1, employeeId := 1, startDate := 1706745600000, endDate := 1707955200000,
      status := "Approved" }
    { id := 2, employeeId := 1, startDate := 1709251200000, endDate := 1710028800000,
      status := "Pending" }
    (by decide) (by decide) (by decide) rfl (by decide) (by decide)

/-- C17 (the day count is not date-only in the code). The comment on
`getDaysBetween` (line 46) says it computes the inclusive days between two dates, and
the claim asks for the number of calendar days whatever the times of day.  At the
request `startDate = "2024-02-01T23:00:00Z"`, `endDate = "2024-02-02T01:00:00Z"` the
range touches two calendar days,
`floor(e / 86400000) - floor(s / 86400000) + 1 = 2`, but `getDaysBetween` returns 1,
while for the same two calendar days at midnight it returns 2.  `applyLeave` hands the
parsed time values to `getDaysBetween` without truncating them: the request is stored
as it is, and approving it charges one day, leaving a balance of 19. -/
theorem day_count_time_of_day_evaluation :
    newDate isoDateTime (.str "2024-02-01T23:00:00Z") = some 1706828400000 ∧
    newDate isoDateTime (.str "2024-02-02T01:00:00Z") = some 1706835600000 ∧
    (1706828400000 : Int) ≤ 1706835600000 ∧
    (1706835600000 : Int) / 86400000 - 1706828400000 / 86400000 + 1 = 2 ∧
    getDaysBetween 1706828400000 1706835600000 = 1 ∧
    getDaysBetween 1706745600000 1706832000000 = 2 ∧
    (applyLeave isoDateTime (run isoDateTime State.init [registerAnn]) (.num 1)
        (.str "2024-02-01T23:00:00Z") (.str "2024-02-02T01:00:00Z")).1
      = .leave { id := 1, employeeId := 1, startDate := 1706828400000,
                 endDate := 1706835600000, status := "Pending" } ∧
    (decideLeave
        (applyLeave isoDateTime (run isoDateTime State.init [registerAnn]) (.num 1)
          (.str "2024-02-01T23:00:00Z") (.str "2024-02-02T01:00:00Z")).2
        (some 1) (.str "Approved")).1
      = .decision 1 "Approved" (some 19) := by
  decide

/-- C19 as stated fails: Ann has a pending request from 08:00 to 09:00 UTC of
2024-02-01; an application from 10:00 to 12:00 UTC of the same calendar day passes
checks 1-5 and is accepted, not refused with the overlap error, because the two
ranges share no instant. -/
theorem overlap_calendar_day_counterexample :
    (run isoDateTime State.init scenarioMorning).leaves
      = [{ id := 1, employeeId := 1, startDate := 1706774400000,
           endDate := 1706778000000, status := "Pending" }] ∧
    newDate isoDateTime (.str "2024-02-01T10:00:00Z") = some 1706781600000 ∧
    newDate isoDateTime (.str "2024-02-01T12:00:00Z") = some 1706788800000 ∧
    (1706774400000 : Int) / 86400000 = 1706781600000 / 86400000 ∧
    (1706778000000 : Int) / 86400000 = 1706788800000 / 86400000 ∧
    (applyLeave isoDateTime (run isoDateTime State.init scenarioMorning) (.num 1)
        (.str "2024-02-01T10:00:00Z") (.str "2024-02-01T12:00:00Z")).1
      = .leave { id := 2, employeeId := 1, startDate := 1706781600000,
                 endDate := 1706788800000, status := "Pending" } := by
  decide

/-- C19, amended (overlap is decided per instant). In every reachable state, for a
registered employee and a supplied, parsed range that passes checks 1-5: if the range
shares at least one instant with some `Pending` or `Approved` request of the same
employee, the application is answered with the overlap error; and when the four time
values are at midnight UTC, as date-only values are, sharing at least one calendar
day is enough. -/
theorem overlap_per_instant (dp : String → Option Int) (s : State) (h : Reachable dp s)
    (e : Employee) (he : e ∈ s.employees) (startDate endDate : JVal) (start endD : Int)
    (h2 : startDate.truthy = true) (h3 : endDate.truthy = true)
    (hs : newDate dp startDate = some start) (hd : newDate dp endDate = some endD)
    (hle : start ≤ endD) (hj : e.joiningDate ≤ start)
    (other : Leave) (ho : other ∈ s.leaves) (hoe : other.employeeId = e.id)
    (hos : other.status = "Pending" ∨ other.status = "Approved") :
    ((∃ t : Int, start ≤ t ∧ t ≤ endD ∧ other.startDate ≤ t ∧ t ≤ other.endDate) →
      applyLeave dp s (.num e.id) startDate endDate
        = (.error 400 "Leave request overlaps with existing leave.", s)) ∧
    (start % 86400000 = 0 → endD % 86400000 = 0 →
      other.startDate % 86400000 = 0 → other.endDate % 86400000 = 0 →
      (∃ day : Int, start / 86400000 ≤ day ∧ day ≤ endD / 86400000 ∧
        other.startDate / 86400000 ≤ day ∧ day ≤ other.endDate / 86400000) →
      applyLeave dp s (.num e.id) startDate endDate
        = (.error 400 "Leave request overlaps with existing leave.", s)) := by
  have hinv := reachable_inv h
  have hne : other.status ≠ "Rejected" := by
    rcases hos with hx | hx <;> rw [hx] <;> decide
  have key : start ≤ other.endDate ∧ endD ≥ other.startDate →
      applyLeave dp s (.num e.id) startDate endDate
        = (.error 400 "Leave request overlaps with existing leave.", s) := by
    intro hov
    have hover : isOverlapping s.leaves e.id start endD = true :=
      (isOverlapping_eq_true_iff _ _ _ _).2 ⟨other, ho, hoe, hne, hov.1, hov.2⟩
    rw [applyLeave_of_mem dp hinv e he _ _ start endD h2 h3 hs hd,
      if_neg (by omega), if_neg (by omega), if_pos hover]
  constructor
  · rintro ⟨t, h1, h2, h3, h4⟩
    exact key ⟨by omega, by omega⟩
  · rintro h1 h2 h3 h4 ⟨day, h5, h6, h7, h8⟩
    exact key ⟨by omega, by omega⟩

/-- C19, amended, at Ann's approved request 2024-02-01..2024-02-15 and the date-only
range 2024-02-15..2024-02-20, which shares the day 2024-02-15 with it. -/
theorem overlap_per_instant_witness :
    applyLeave isoDate (run isoDate State.init scenarioApproved) (.num 1)
        (.str "2024-02-15") (.str "2024-02-20")
      = (.error 400 "Leave request overlaps with existing leave.",
          run isoDate State.init scenarioApproved) :=
  (overlap_per_instant isoDate (run isoDate State.init scenarioApproved)
    ⟨scenarioApproved, rfl⟩ ann (by decide) (.str "2024-02-15") (.str "2024-02-20")
    1707955200000 1708387200000 (by decide) (by decide) (by decide) (by decide)
    (by decide) (by decide)
    { id := 1, employeeId := 1, startDate := 1706745600000, endDate := 1707955200000,
      status := "Approved" } (by decide) (by decide) (by decide)).2
      (by decide) (by decide) (by decide) (by decide) ⟨19768, by decide⟩

end LeaveManagement
